import Mathlib

/-!
Verification of the superast Go-to-JSON AST normalizer.

The repository contains several snapshots of the same visitor.  Two of them
are relevant to the claims and are both embedded here:

* the most complete traversal snapshot (visitor.go together with its types
  file): a block-stack machine with conditionals, loops, returns,
  inc/dec, error nodes and a recursive expression normalizer; its File
  case performs no validation;
* the earlier snapshot (superast.go): a statement-list-stack machine that
  implements the package/import gate, the fmt.Println -> print rename
  table, and the assignment handler that type-asserts the right-hand side
  to a basic literal.

Mutable Go state is embedded as explicit state passing.  Blocks (and, in
the earlier snapshot, argument lists) are mutated through pointers in Go;
here the heap is a store mapping the allocated numeric id of each open
statement list to its contents, and the push/pop stacks hold store keys.
Source positions (line/column) are not modelled: no claim concerns them
and they do not consume ids.
-/

/-! ## Models of the Go strconv functions used by the code -/

/-- Largest int64, the clamp value of strconv.ParseInt on range error. -/
def maxInt64 : Int := 9223372036854775807

/-- Smallest int64. -/
def minInt64 : Int := -9223372036854775808

/-- Model of strconv.ParseInt(s, 10, 0) with the error ignored, as in
exprValue: an optional sign followed by one or more decimal digits parses
to its value (clamped to int64 on range error); any other input is a
syntax error and the ignored-error result is 0. -/
def goParseInt (s : String) : Int :=
  match s.toList with
  | [] => 0
  | c :: rest =>
    let p : Bool × List Char :=
      if c = '-' then (true, rest)
      else if c = '+' then (false, rest)
      else (false, c :: rest)
    if p.2 ≠ [] ∧ p.2.all Char.isDigit then
      let n : Nat := p.2.foldl (fun a d => a * 10 + (d.toNat - 48)) 0
      let v : Int := if p.1 then -(n : Int) else (n : Int)
      if v > maxInt64 then maxInt64
      else if v < minInt64 then minInt64
      else v
    else 0

/-- Model of strconv.ParseFloat(s, 64) with the error ignored, restricted
to plain decimal literals (optional sign, digits, optional fraction,
optional decimal exponent), evaluated exactly over the rationals.  Hex
floats, inf/nan and the IEEE-754 rounding of the result are not modelled:
no claim depends on the numeric payload of a float literal, only on the
value being in the float domain rather than raw text. -/
def goParseFloat (s : String) : Rat :=
  match s.toList with
  | [] => 0
  | c :: rest =>
    let p : Bool × List Char :=
      if c = '-' then (true, rest)
      else if c = '+' then (false, rest)
      else (false, c :: rest)
    let intPart := p.2.takeWhile Char.isDigit
    let rest1 := p.2.dropWhile Char.isDigit
    let frac : Option (List Char × List Char) :=
      match rest1 with
      | '.' :: r => some (r.takeWhile Char.isDigit, r.dropWhile Char.isDigit)
      | _ => some ([], rest1)
    match frac with
    | none => 0
    | some (fracPart, rest2) =>
      let expo : Option Int :=
        match rest2 with
        | [] => some 0
        | e :: r =>
          if e = 'e' ∨ e = 'E' then
            match r with
            | '-' :: ds => if ds ≠ [] ∧ ds.all Char.isDigit then
                some (-(ds.foldl (fun a d => a * 10 + (d.toNat - 48)) 0 : Int)) else none
            | '+' :: ds => if ds ≠ [] ∧ ds.all Char.isDigit then
                some ((ds.foldl (fun a d => a * 10 + (d.toNat - 48)) 0 : Nat) : Int) else none
            | ds => if ds ≠ [] ∧ ds.all Char.isDigit then
                some ((ds.foldl (fun a d => a * 10 + (d.toNat - 48)) 0 : Nat) : Int) else none
          else none
      if intPart = [] ∧ fracPart = [] then 0
      else
        match expo with
        | none => 0
        | some e =>
          let digits := intPart ++ fracPart
          let mantissa : Nat := digits.foldl (fun a d => a * 10 + (d.toNat - 48)) 0
          let e' : Int := e - fracPart.length
          let base : Rat := (mantissa : Rat)
          let scaled : Rat :=
            if e' ≥ 0 then base * ((10 : Rat) ^ e'.toNat)
            else base / ((10 : Rat) ^ (-e').toNat)
          if p.1 then -scaled else scaled

/-- A decoded rune together with the unconsumed input. -/
abbrev EscResult := Nat × List Char

/-- Hex digit value. -/
def hexVal (c : Char) : Option Nat :=
  if '0' ≤ c ∧ c ≤ '9' then some (c.toNat - 48)
  else if 'a' ≤ c ∧ c ≤ 'f' then some (c.toNat - 87)
  else if 'A' ≤ c ∧ c ≤ 'F' then some (c.toNat - 55)
  else none

/-- Read exactly n hex digits. -/
def readHex : Nat → List Char → Option EscResult
  | 0, cs => some (0, cs)
  | _ + 1, [] => none
  | n + 1, c :: cs =>
    match hexVal c with
    | none => none
    | some d =>
      match readHex n cs with
      | none => none
      | some (v, rest) => some (d * 16 ^ n + v, rest)

/-- Model of the escape-sequence arm of strconv.UnquoteChar: the input is
the text following a backslash; quote is the surrounding quote character.
Returns the decoded rune and the remaining input, or none on ErrSyntax.
Bytes above 0x7f produced by hex and octal escapes are raw bytes in a Go
string; they are modelled as code points here (no claim concerns them). -/
def unquoteEsc (quote : Char) : List Char → Option EscResult
  | [] => none
  | c :: cs =>
    if c = 'a' then some (7, cs)
    else if c = 'b' then some (8, cs)
    else if c = 'f' then some (12, cs)
    else if c = 'n' then some (10, cs)
    else if c = 'r' then some (13, cs)
    else if c = 't' then some (9, cs)
    else if c = 'v' then some (11, cs)
    else if c = '\\' then some (92, cs)
    else if c = '\x27' then (if quote = '\x27' then some (39, cs) else none)
    else if c = '"' then (if quote = '"' then some (34, cs) else none)
    else if c = 'x' then readHex 2 cs
    else if c = 'u' then
      match readHex 4 cs with
      | none => none
      | some (v, rest) =>
        if 0xD800 ≤ v ∧ v < 0xE000 then none else some (v, rest)
    else if c = 'U' then
      match readHex 8 cs with
      | none => none
      | some (v, rest) =>
        if v > 0x10FFFF ∨ (0xD800 ≤ v ∧ v < 0xE000) then none else some (v, rest)
    else if '0' ≤ c ∧ c ≤ '7' then
      match cs with
      | c2 :: c3 :: rest =>
        if ('0' ≤ c2 ∧ c2 ≤ '7') ∧ ('0' ≤ c3 ∧ c3 ≤ '7') then
          let v := (c.toNat - 48) * 64 + (c2.toNat - 48) * 8 + (c3.toNat - 48)
          if v > 255 then none else some (v, rest)
        else none
      | _ => none
    else none

/-- One step of strconv.Unquote inside a double- or single-quoted literal:
decode one character or escape sequence. -/
def unquoteOne (quote : Char) : List Char → Option (Char × List Char)
  | [] => none
  | c :: cs =>
    if c = quote then none
    else if c = '\\' then
      match unquoteEsc quote cs with
      | none => none
      | some (v, rest) =>
        if h : v.isValidChar then some (Char.ofNatAux v h, rest) else none
    else some (c, cs)

/-- Repeated unquoteOne until the input is exhausted, with fuel. -/
def unquoteLoop (quote : Char) : Nat → List Char → Option (List Char)
  | 0, _ => none
  | _ + 1, [] => some []
  | fuel + 1, cs =>
    match unquoteOne quote cs with
    | none => none
    | some (c, rest) =>
      match unquoteLoop quote fuel rest with
      | none => none
      | some out => some (c :: out)

/-- Model of strconv.Unquote: the input must be a complete quoted Go
string/char/raw literal; returns the decoded contents, or none on error.
Raw (backtick) literals reject inner backticks and drop carriage returns;
quoted literals reject raw newlines; a single-quoted literal must contain
exactly one character. -/
def goUnquote (s : String) : Option String :=
  let cs := s.toList
  match cs with
  | [] => none
  | [_] => none
  | q :: rest =>
    let body := rest.dropLast
    let last := rest.getLast?
    if last ≠ some q then none
    else if q = Char.ofNat 96 then
      if body.contains (Char.ofNat 96) then none
      else some ⟨body.filter (· ≠ '\r')⟩
    else if q = '"' then
      if body.contains '\n' then none
      else (unquoteLoop '"' (body.length + 1) body).map (⟨·⟩)
    else if q = '\x27' then
      if body.contains '\n' then none
      else
        match unquoteOne '\x27' body with
        | some (c, []) => some ⟨[c]⟩
        | _ => none
    else none

/-- Model of the call r, _, _, _ := strconv.UnquoteChar(t.Value, quote)
with all results but the rune ignored, applied to a full literal text:
if the first character equals the quote character UnquoteChar reports
ErrSyntax and the ignored-error rune is 0. -/
def goUnquoteChar (s : String) : Int :=
  match s.toList with
  | [] => 0
  | c :: rest =>
    if c = '\x27' then 0
    else if c ≠ '\\' then (c.toNat : Int)
    else
      match unquoteEsc '\x27' rest with
      | none => 0
      | some (v, _) => (v : Int)

/-! ## The native Go AST, as walked by go/ast.Walk -/

/-- Kinds of ast.BasicLit tokens that can appear in an expression. -/
inductive LitKind where
  | int | float | char | string | imag
deriving DecidableEq, Repr

/-- Unary operator tokens: the three the normalizer supports, and any
other token together with its printed form (token.Token.String()). -/
inductive UnOp where
  | add | sub | not | other (repr : String)
deriving DecidableEq, Repr

/-- Printed form of a unary operator token. -/
def UnOp.str : UnOp → String
  | .add => "+"
  | .sub => "-"
  | .not => "!"
  | .other s => s

/-- Binary operator tokens: logical and/or (renamed by the normalizer),
and any other token with its printed form. -/
inductive BinOp where
  | land | lor | other (repr : String)
deriving DecidableEq, Repr

/-- Printed form of a binary operator token. -/
def BinOp.str : BinOp → String
  | .land => "&&"
  | .lor => "||"
  | .other s => s

/-- Assignment tokens: token.DEFINE, and any other with its printed form. -/
inductive AssignTok where
  | define | other (repr : String)
deriving DecidableEq, Repr

/-- Printed form of an assignment token. -/
def AssignTok.str : AssignTok → String
  | .define => ":="
  | .other s => s

/-- Native Go expressions, covering every shape the visitors inspect.
otherExpr stands for any remaining ast.Expr (function literals, type
assertions, slice expressions, ...), all of which fall into the default
arm of every switch in the source. -/
inductive GoExpr where
  | ident (name : String)
  | basicLit (kind : LitKind) (val : String)
  | unaryExpr (op : UnOp) (x : GoExpr)
  | binaryExpr (op : BinOp) (x y : GoExpr)
  | callExpr (fn : GoExpr) (args : List GoExpr)
  | indexExpr (x idx : GoExpr)
  | selectorExpr (x : GoExpr) (sel : String)
  | parenExpr (x : GoExpr)
  | starExpr (x : GoExpr)
  | arrayType (elt : GoExpr)
  | compositeLit (typ : GoExpr)
  | otherExpr
deriving Repr

/-- One entry of an ast.FieldList: a (possibly empty) name list sharing
one type expression. -/
structure GoField where
  names : List String
  type : GoExpr
deriving Repr

/-- Specs of an ast.GenDecl.  A TypeSpec is split by whether its type is
a struct type (the only shape either visitor handles). -/
inductive GoSpec where
  | valueSpec (typ : Option GoExpr) (names : List String) (values : Option (List GoExpr))
  | typeSpecStruct (name : String) (fields : List GoField)
  | typeSpecOther (name : String)
  | importSpec (path : String)
  | otherSpec
deriving Repr

/-- Native Go statements.  Bodies of block-bearing constructs are stored
as their statement lists (the ast.BlockStmt around a function/if/for body
is walked as a node and its exit pops a block in the visitor.go snapshot);
an else branch is kept as a full statement node since it may be either a
block statement or a nested if statement.  The six disallowed constructs
keep their sub-structure to express that the traversal never descends
into it. -/
inductive GoStmt where
  | exprStmt (x : GoExpr)
  | declStmt (specs : List GoSpec)
  | assign (tok : AssignTok) (lhs rhs : List GoExpr)
  | returnStmt (results : List GoExpr)
  | incDec (inc : Bool) (x : GoExpr)
  | ifStmt (init : List GoStmt) (cond : GoExpr) (body : List GoStmt) (els : List GoStmt)
  | forStmt (init : List GoStmt) (cond : Option GoExpr) (post : List GoStmt) (body : List GoStmt)
  | blockStmt (body : List GoStmt)
  | branchStmt (label : String)
  | rangeStmt (body : List GoStmt)
  | sendStmt (ch val : GoExpr)
  | switchStmt (body : List GoStmt)
  | deferStmt (call : GoExpr)
  | goStmt (call : GoExpr)
  | otherStmt
deriving Repr

/-- Top-level declarations of a file. -/
inductive GoDecl where
  | funcDecl (name : String) (params results : List GoField) (body : Option (List GoStmt))
  | genDecl (specs : List GoSpec)
deriving Repr

/-- An ast.File: package name, the collected import paths (ast.File's
Imports field, each the raw quoted literal text), and the declarations. -/
structure GoFile where
  pkg : String
  imports : List String
  decls : List GoDecl
deriving Repr

/-! ## The visitor.go snapshot: IR node types (types.go) -/

/-- A dataType value as produced by exprType, before assignIdToDataType
has run: a name and an optional owned sub-type, ids still unset. -/
inductive DT0 where
  | mk (name : String) (sub : Option DT0)
deriving Repr

/-- Name of a DT0. -/
def DT0.name : DT0 → String
  | .mk n _ => n

/-- Sub-type of a DT0. -/
def DT0.sub : DT0 → Option DT0
  | .mk _ s => s

/-- A dataType with its id assigned: id, name, optional owned sub-type. -/
inductive VDataType where
  | mk (id : Nat) (name : String) (sub : Option VDataType)
deriving Repr

/-- Id of a VDataType. -/
def VDataType.id : VDataType → Nat
  | .mk i _ _ => i

/-- Name of a VDataType. -/
def VDataType.name : VDataType → String
  | .mk _ n _ => n

/-- Scalar values held by an identifier node, mirroring the value
interface: a parsed int64, a parsed float, a rune, or a string (which
also covers identifier names and raw fallback text). -/
inductive GoVal where
  | int (i : Int)
  | float (q : Rat)
  | rune (r : Int)
  | str (s : String)
deriving DecidableEq, Repr

/-- IR expressions of the visitor.go snapshot.  A nil expr interface
(parseExpr's default arm) is represented by Option.none at each use
site, so children that Go leaves nil are Option-typed here. -/
inductive VExpr where
  | identifier (id : Nat) (type : String) (value : GoVal)
  | unary (id : Nat) (type : String) (expr : Option VExpr)
  | binary (id : Nat) (type : String) (left right : Option VExpr)
  | funcCall (id : Nat) (name : String) (args : List (Option VExpr))
  | errorNode (id : Nat) (type value desc : String)
deriving Repr

/-- A varDecl: id, name, owned data type, optional Init expression. -/
structure VVarDecl where
  id : Nat
  name : String
  dataType : Option VDataType
  init : Option VExpr
deriving Repr

/-- IR statements of the visitor.go snapshot.  Blocks are identified by
their allocated id; their contents live in the state's store.  nilS
stands for a nil stmt interface appended by addStmt (never produced by
the reachable emission paths, but kept so the embedding is total exactly
where Go is). -/
inductive VStmt where
  | exprS (e : VExpr)
  | nilS
  | structDecl (id : Nat) (name : String) (attrs : List VVarDecl)
  | funcDecl (id : Nat) (name : String) (retType : Option VDataType)
      (params : List VVarDecl) (blockId : Nat)
  | varDecl (v : VVarDecl)
  | retStmt (id : Nat) (expr : Option VExpr)
  | conditional (id : Nat) (cond : Option VExpr) (thenId : Nat) (elseId : Option Nat)
  | forStmt (id : Nat) (type : String) (cond : Option VExpr) (blockId : Nat)
deriving Repr

/-! ## The visitor.go snapshot: pure helper functions -/

/-- exprString from visitor.go: the flattened name of an expression. -/
def exprString : GoExpr → String
  | .ident n => n
  | .basicLit _ v => v
  | .starExpr x => exprString x
  | .selectorExpr x sel => exprString x ++ "." ++ sel
  | _ => ""

/-- basicLitName lookup: token kind to scalar type name; an imaginary
literal is absent from the map so the comma-ok form yields "". -/
def basicLitName : LitKind → Option String
  | .int => some "int"
  | .float => some "double"
  | .char => some "char"
  | .string => some "string"
  | .imag => none

/-- The scalar produced by exprValue for a BasicLit of the given kind and
raw text.  INT/FLOAT parse with the error ignored; CHAR passes the whole
quoted literal to UnquoteChar; STRING unquotes with the error ignored (so
the zero-value "" results on error); any other kind returns the raw text. -/
def litValue (k : LitKind) (v : String) : GoVal :=
  match k with
  | .int => .int (goParseInt v)
  | .float => .float (goParseFloat v)
  | .char => .rune (goUnquoteChar v)
  | .string => .str ((goUnquote v).getD "")
  | .imag => .str v

/-- exprValue from visitor.go: some scalar for a basic literal, none (the
nil value interface) for everything else. -/
def exprValue : GoExpr → Option GoVal
  | .basicLit k v => some (litValue k v)
  | _ => none

/-- exprType from visitor.go: array types become "vector" with an owned
element type; a basic literal uses its scalar type name; a binary
expression takes its left operand's type; a composite literal uses its
type's flattened name; otherwise the flattened name if non-empty, else
"unknown". -/
def exprType : GoExpr → DT0
  | .arrayType elt => .mk "vector" (some (exprType elt))
  | .basicLit k _ => .mk ((basicLitName k).getD "") none
  | .binaryExpr _ x _ => exprType x
  | .compositeLit t => .mk (exprString t) none
  | x => if exprString x ≠ "" then .mk (exprString x) none else .mk "unknown" none

/-- exprType applied to a possibly-nil ast.Expr (a nil ValueSpec type
falls through every case of exprType and lands on "unknown" via the empty
exprString). -/
def exprTypeOpt : Option GoExpr → DT0
  | none => .mk "unknown" none
  | some e => exprType e

/-- flattenNames from visitor.go: each name paired with the one resolved
type value; an empty name list yields a single entry with an empty name. -/
def flattenNames (baseType : Option GoExpr) (names : List String) :
    List (String × DT0) :=
  let t := exprTypeOpt baseType
  match names with
  | [] => [("", t)]
  | _ => names.map (fun n => (n, t))

/-- flattenFieldList from visitor.go: concatenated flattenNames over the
field entries (a nil field list and an empty one both flatten to []). -/
def flattenFieldList (fields : List GoField) : List (String × DT0) :=
  fields.flatMap (fun f => flattenNames (some f.type) f.names)

/-- zeroValues from visitor.go.  In the source the map stores new(int),
new(float64), new(rune), new(string): non-nil pointers to zero values,
which serialize as the pointed-to zeros; the model stores those scalar
zeros directly.  A type name outside the map yields the nil value via the
comma-ok form, modelled as none. -/
def zeroValues : String → Option GoVal
  | "int" => some (.int 0)
  | "double" => some (.float 0)
  | "char" => some (.rune 0)
  | "string" => some (.str "")
  | _ => none

/-- assignIdToDataType's recursion on a present dataType: copy the value,
give the copy a fresh id, then recurse into the owned sub-type.  The
counter is threaded explicitly; the root receives the first fresh id. -/
def assignIdDT (c : Nat) : DT0 → VDataType × Nat
  | .mk n none => (.mk c n none, c + 1)
  | .mk n (some d) =>
    let p := assignIdDT (c + 1) d
    (.mk c n (some p.1), p.2)

/-- assignIdToDataType from visitor.go: nil propagates, otherwise fresh
ids for the copy and recursively for every owned sub-type. -/
def assignIdToDataType (c : Nat) : Option DT0 → Option VDataType × Nat
  | none => (none, c)
  | some d =>
    let p := assignIdDT c d
    (some p.1, p.2)

/-- Normalized operator tag of a unary token (parseExpr's inner switch). -/
def unOpTag : UnOp → String
  | .add => "pos"
  | .sub => "neg"
  | .not => "not"
  | .other s => s

/-- Normalized operator tag of a binary token: logical and/or renamed,
all others keep their printed form. -/
def binOpTag : BinOp → String
  | .land => "and"
  | .lor => "or"
  | .other s => s

mutual
/-- parseExpr from visitor.go, with the id counter threaded: returns the
normalized expression (none = the nil expr interface of the default arm)
and the advanced counter.  Ids are allocated in Go's composite-literal
evaluation order: the node's own id first, then its children's. -/
def parseExpr (c : Nat) : GoExpr → Option VExpr × Nat
  | .ident n => (some (.identifier c "identifier" (.str n)), c + 1)
  | .basicLit k v =>
    (some (.identifier c ((basicLitName k).getD "") (litValue k v)), c + 1)
  | .unaryExpr op x =>
    match op with
    | .other s =>
      (some (.errorNode c "error" "Unsupported statement or expression"
        ("Invalid unary expression: " ++ s)), c + 1)
    | _ =>
      let p := parseExpr (c + 1) x
      (some (.unary c (unOpTag op) p.1), p.2)
  | .callExpr fn args =>
    let p := parseExprList (c + 1) args
    (some (.funcCall c (exprString fn) p.1), p.2)
  | .binaryExpr op x y =>
    let l := parseExpr (c + 1) x
    let r := parseExpr l.2 y
    (some (.binary c (binOpTag op) l.1 r.1), r.2)
  | .indexExpr x i =>
    let l := parseExpr (c + 1) x
    let r := parseExpr l.2 i
    (some (.binary c "[]" l.1 r.1), r.2)
  | .selectorExpr x sel =>
    let l := parseExpr (c + 1) x
    -- Right = a.parseExpr(x.Sel): x.Sel is an ident node, inlined here
    (some (.binary c "." l.1
      (some (.identifier l.2 "identifier" (.str sel)))), l.2 + 1)
  | .parenExpr x => parseExpr c x
  | .starExpr _ => (none, c)
  | .arrayType _ => (none, c)
  | .compositeLit _ => (none, c)
  | .otherExpr => (none, c)

/-- The argument loop of parseExpr's CallExpr arm. -/
def parseExprList (c : Nat) : List GoExpr → List (Option VExpr) × Nat
  | [] => ([], c)
  | e :: rest =>
    let p := parseExpr c e
    let q := parseExprList p.2 rest
    (p.1 :: q.1, q.2)
end

/-! ## The visitor.go snapshot: traversal state and walk -/

/-- Traversal state of the visitor.go AST value: the id counter, the heap
of open and closed statement lists keyed by their block's id, and the
block stack holding store keys (head = innermost; Go appends to the end
of blockStack and reads the last element). -/
structure VState where
  curID : Nat
  store : List (Nat × List VStmt)
  stack : List Nat
deriving Repr

/-- Look a key up in a store. -/
def lookupStore {α : Type} (store : List (Nat × List α)) (k : Nat) :
    Option (List α) :=
  match store with
  | [] => none
  | (k', l) :: rest => if k' = k then some l else lookupStore rest k

/-- Append a statement to the list held at a key; none if the key is
absent (unreachable: every pushed key has an entry). -/
def appendStore {α : Type} (store : List (Nat × List α)) (k : Nat) (s : α) :
    Option (List (Nat × List α)) :=
  match store with
  | [] => none
  | (k', l) :: rest =>
    if k' = k then some ((k', l ++ [s]) :: rest)
    else (appendStore rest k s).map ((k', l) :: ·)

/-- addStmt from visitor.go: append to the innermost open block.  curBlock
indexes blockStack[len-1] without a guard, so an empty stack is a panic,
modelled as none. -/
def addStmt (st : VState) (s : VStmt) : Option VState :=
  match st.stack with
  | [] => none
  | k :: _ => (appendStore st.store k s).map (fun σ => { st with store := σ })

/-- pushBlock from visitor.go: a freshly created block (empty statement
list) becomes the innermost scope. -/
def pushBlock (st : VState) (k : Nat) : VState :=
  { st with store := st.store ++ [(k, [])], stack := k :: st.stack }

/-- popBlock from visitor.go: unguarded slice shrink, so popping an empty
stack is a panic, modelled as none. -/
def popBlock (st : VState) : Option VState :=
  match st.stack with
  | [] => none
  | _ :: t => some { st with stack := t }

/-- getInvalid followed by addStmt (addInvalid from visitor.go): allocate
a leaf errorNode with the fixed value string and the given description
and append it to the active block. -/
def addInvalid (st : VState) (desc : String) : Option VState :=
  addStmt { st with curID := st.curID + 1 }
    (.exprS (.errorNode st.curID "error" "Unsupported statement or expression" desc))

/-- The parameter/attribute loop shared by the FuncDecl and TypeSpec arms:
one varDecl per flattened (name, type) pair, with a fresh id for the decl
and fresh ids for its data type. -/
def varDeclLoop (c : Nat) : List (String × DT0) → List VVarDecl × Nat
  | [] => ([], c)
  | (n, dt) :: rest =>
    let p := assignIdToDataType (c + 1) (some dt)
    let q := varDeclLoop p.2 rest
    (⟨c, n, p.1, none⟩ :: q.1, q.2)

/-- The per-spec loop of the DeclStmt arm, one varDecl per flattened name.
The i-th flattened name reads Values[i] when the Values slice is non-nil;
an out-of-range index is a panic (none).  The Init is set only when the
value is non-nil. -/
def valueSpecLoop (st : VState) (values : Option (List GoExpr)) :
    Nat → List (String × DT0) → Option VState
  | _, [] => some st
  | i, (n, dt) :: rest => do
    let v : Option GoVal ←
      match values with
      | none => some (zeroValues dt.name)
      | some vs =>
        match vs[i]? with
        | none => none
        | some e => some (exprValue e)
    let p := assignIdToDataType (st.curID + 1) (some dt)
    let d : VVarDecl :=
      match v with
      | none => ⟨st.curID, n, p.1, none⟩
      | some gv => ⟨st.curID, n, p.1, some (.identifier p.2 dt.name gv)⟩
    let c' := match v with | none => p.2 | some _ => p.2 + 1
    let st' ← addStmt { st with curID := c' } (.varDecl d)
    valueSpecLoop st' values (i + 1) rest

/-- The DeclStmt arm's outer loop over gd.Specs: only ValueSpecs are
handled, every other spec kind is skipped by the comma-ok assertion. -/
def declSpecLoop (st : VState) : List GoSpec → Option VState
  | [] => some st
  | .valueSpec typ names values :: rest => do
    let st' ← valueSpecLoop st values 0 (flattenNames typ names)
    declSpecLoop st' rest
  | _ :: rest => declSpecLoop st rest

/-- The AssignStmt arm's loop: pair each left-hand side positionally with
Rhs[i] (out of range = panic = none); token.DEFINE emits a varDecl with
inferred type and parsed Init, any other token a binary statement tagged
with the token text. -/
def assignLoop (st : VState) (tok : AssignTok) (rhs : List GoExpr) :
    Nat → List GoExpr → Option VState
  | _, [] => some st
  | i, l :: ls => do
    let r ← rhs[i]?
    let st' ←
      match tok with
      | .define =>
        let p := assignIdToDataType (st.curID + 1) (some (exprType r))
        let q := parseExpr p.2 r
        addStmt { st with curID := q.2 }
          (.varDecl ⟨st.curID, exprString l, p.1, q.1⟩)
      | .other s =>
        let pl := parseExpr (st.curID + 1) l
        let pr := parseExpr pl.2 r
        addStmt { st with curID := pr.2 }
          (.exprS (.binary st.curID s pl.1 pr.1))
    assignLoop st' tok rhs (i + 1) ls

mutual
/-- One node of the visitor.go traversal: the Visit entry switch of
AST.Visit combined with ast.Walk's child order and the Visit(nil) exit.
Arms that return nil in Go walk no children.  none is a runtime panic.
This machine ties each block pop structurally to the construct that
pushed the block (body exit, if/for exit); the source instead dispatches
pops off a node stack that the if-with-else arm corrupts by pushing its
node twice — walkStmtN below keeps that node stack exactly, and the two
machines diverge once an if-with-else has been walked (claim_C2). -/
def walkStmt (st : VState) : GoStmt → Option VState
  | .exprStmt x => walkExprNode st x
  | .declStmt specs => declSpecLoop st specs
  | .assign tok lhs rhs => assignLoop st tok rhs 0 lhs
  | .returnStmt results =>
    -- r := &retStmt{id: newID, ...}; if len(Results) > 0 { r.Expr = parseExpr(Results[0]) }
    (match results with
     | [] => addStmt { st with curID := st.curID + 1 } (.retStmt st.curID none)
     | e :: _ =>
       let p := parseExpr (st.curID + 1) e
       addStmt { st with curID := p.2 } (.retStmt st.curID p.1))
  | .incDec inc x =>
    let p := parseExpr (st.curID + 1) x
    addStmt { st with curID := p.2 }
      (.exprS (.unary st.curID (if inc then "_++" else "_--") p.1))
  | .ifStmt init cond body els => do
    -- c := &conditional{id, pos, Type, Cond: parseExpr(Cond), Then: &block{id: newID}}
    let cId := st.curID
    let p := parseExpr (cId + 1) cond
    let thenId := p.2
    let st1 ←
      match els with
      | [] => do
        let s ← addStmt { st with curID := thenId + 1 }
          (.conditional cId p.1 thenId none)
        pure (pushBlock s thenId)
      | _ => do
        -- c.Else = &block{id: newID}; pushBlock(Else) before pushBlock(Then)
        let elseId := thenId + 1
        let s ← addStmt { st with curID := elseId + 1 }
          (.conditional cId p.1 thenId (some elseId))
        pure (pushBlock (pushBlock s elseId) thenId)
    -- children: Init, Cond, Body (a BlockStmt: its exit pops), Else
    let st2 ← walkStmts st1 init
    let st3 ← walkExprNode st2 cond
    let st4 ← walkStmts st3 body
    let st5 ← popBlock st4
    walkStmts st5 els
  | .forStmt init cond post body => do
    -- f := &forStmt{id, pos, Type: "while", Cond: parseExpr(Cond), Block: &block{id: newID}}
    let fId := st.curID
    let p :=
      match cond with
      | none => ((none : Option VExpr), fId + 1)
      | some e => parseExpr (fId + 1) e
    let blockId := p.2
    let typ := if init.isEmpty && post.isEmpty then "while" else "for"
    let st1 ← addStmt { st with curID := blockId + 1 }
      (.forStmt fId typ p.1 blockId)
    let st2 := pushBlock st1 blockId
    -- children: Init, Cond, Post, Body (a BlockStmt: its exit pops)
    let st3 ← walkStmts st2 init
    let st4 ←
      match cond with
      | none => pure st3
      | some e => walkExprNode st3 e
    let st5 ← walkStmts st4 post
    let st6 ← walkStmts st5 body
    popBlock st6
  | .blockStmt body => do
    -- case *ast.BlockStmt: descend; exit pops a block unconditionally
    let st1 ← walkStmts st body
    popBlock st1
  | .branchStmt _ => addInvalid st "branch statements not supported"
  | .rangeStmt _ => addInvalid st "range statements not supported"
  | .sendStmt _ _ => addInvalid st "send statements not supported"
  | .switchStmt _ => addInvalid st "switch statements not supported"
  | .deferStmt _ => addInvalid st "defer statements not supported"
  | .goStmt _ => addInvalid st "go statements not supported"
  | .otherStmt => some st

/-- An expression visited as a node (a child of ExprStmt, or an if/for
condition): only BasicLit, UnaryExpr and CallExpr have arms, each parsing
the expression, appending it as a statement, and walking no children;
every other expression falls into the default arm and is skipped. -/
def walkExprNode (st : VState) : GoExpr → Option VState
  | x@(.basicLit _ _) =>
    (match parseExpr st.curID x with
     | (some e, c') => addStmt { st with curID := c' } (.exprS e)
     | (none, c') => addStmt { st with curID := c' } .nilS)
  | x@(.unaryExpr _ _) =>
    (match parseExpr st.curID x with
     | (some e, c') => addStmt { st with curID := c' } (.exprS e)
     | (none, c') => addStmt { st with curID := c' } .nilS)
  | x@(.callExpr _ _) =>
    (match parseExpr st.curID x with
     | (some e, c') => addStmt { st with curID := c' } (.exprS e)
     | (none, c') => addStmt { st with curID := c' } .nilS)
  | _ => some st

/-- walkStmtList of ast.Walk. -/
def walkStmts (st : VState) : List GoStmt → Option VState
  | [] => some st
  | s :: rest => do
    let st' ← walkStmt st s
    walkStmts st' rest
end

/-- The TypeSpec arm: a struct type emits a structDecl with one varDecl
attribute per flattened field; any other TypeSpec emits nothing.  Both
return nil in Go, so no children are walked. -/
def walkSpec (st : VState) : GoSpec → Option VState
  | .typeSpecStruct name fields =>
    let p := varDeclLoop (st.curID + 1) (flattenFieldList fields)
    addStmt { st with curID := p.2 } (.structDecl st.curID name p.1)
  | _ => some st

/-- The spec list of a GenDecl (whose own arm is empty and descends). -/
def walkSpecs (st : VState) : List GoSpec → Option VState
  | [] => some st
  | s :: rest => do
    let st' ← walkSpec st s
    walkSpecs st' rest

/-- The FuncDecl arm: build the funcDecl statement (void return type
unless exactly one flattened result), append it, push its body block,
then walk Name and Type (both skipped by the default arm) and the body
BlockStmt, whose exit pops the block; a nil body walks nothing and pops
nothing. -/
def walkFuncDecl (st : VState) (name : String)
    (params results : List GoField) (body : Option (List GoStmt)) :
    Option VState := do
  let retType0 : DT0 :=
    match flattenFieldList results with
    | [(_, dt)] => dt
    | _ => .mk "void" none
  let dId := st.curID
  let p := assignIdToDataType (dId + 1) (some retType0)
  let blockId := p.2
  let q := varDeclLoop (blockId + 1) (flattenFieldList params)
  let st1 ← addStmt { st with curID := q.2 }
    (.funcDecl dId name p.1 q.1 blockId)
  let st2 := pushBlock st1 blockId
  match body with
  | none => pure st2
  | some l => do
    let st3 ← walkStmts st2 l
    popBlock st3

/-- One top-level declaration. -/
def walkDecl (st : VState) : GoDecl → Option VState
  | .funcDecl name params results body => walkFuncDecl st name params results body
  | .genDecl specs => walkSpecs st specs

/-- The declaration list of a file. -/
def walkDecls (st : VState) : List GoDecl → Option VState
  | [] => some st
  | d :: rest => do
    let st' ← walkDecl st d
    walkDecls st' rest

/-- The state built by NewAST: the root block takes the first id (0) and
is the only open scope. -/
def initV : VState :=
  { curID := 1, store := [(0, [])], stack := [0] }

/-- ast.Walk(NewAST(fset), f) for the visitor.go snapshot.  The *ast.File
arm is empty (no validation), so walking the file just walks Name (an
Ident, skipped by the default arm) and the declarations. -/
def runV (f : GoFile) : Option VState :=
  walkDecls initV f.decls

/-! ## The superast.go snapshot: IR, state and walk -/

/-- A parameter or struct attribute of the superast.go snapshot: the
varDecl struct there has an id, a name and an owned dataType (id, name). -/
structure SParam where
  id : Nat
  name : String
  dtId : Nat
  dtName : String
deriving DecidableEq, Repr

/-- IR statements of the superast.go snapshot.  Values are strings (the
statement struct's Value field).  A funcCall's Args list and a funcDecl's
block are filled through pointers while their key is on the stmts stack;
both live in the store, a funcCall's arguments under its own id. -/
inductive SStmt where
  | identS (id : Nat) (value : String)
  | litS (id : Nat) (value : String)
  | callS (id : Nat) (name : String)
  | funcS (id : Nat) (name : String) (retId : Nat) (retName : String)
      (params : List SParam) (blockId : Nat)
  | varS (id : Nat) (name : String) (dtId : Nat) (dtName : String)
      (initId : Nat) (initType initValue : String)
  | structS (id : Nat) (name : String) (attrs : List SParam)
deriving DecidableEq, Repr

/-- Traversal state of the superast.go AST value: id counter, store of
open and closed statement lists, and the stmtsStack of store keys (head
= innermost). -/
structure SState where
  curID : Nat
  store : List (Nat × List SStmt)
  stack : List Nat
deriving DecidableEq, Repr

/-- strUnquote from superast.go: strconv.Unquote, returning the input
unchanged on error. -/
def strUnquote (s : String) : String :=
  (goUnquote s).getD s

/-- exprToString from superast.go (same shape as visitor.go's
exprString). -/
def exprToString : GoExpr → String
  | .ident n => n
  | .basicLit _ v => v
  | .selectorExpr x sel => exprToString x ++ "." ++ sel
  | .starExpr x => exprToString x
  | _ => ""

/-- The funcNames rename table: known standard output calls map to the
canonical builtin name. -/
def funcNames : String → Option String
  | "fmt.Println" => some "print"
  | "println" => some "print"
  | _ => none

/-- flattenFieldList from superast.go: (varName, typeName) pairs, one per
name, or one with the empty name for a nameless field entry. -/
def flattenFieldListS (fields : List GoField) : List (String × String) :=
  fields.flatMap (fun f =>
    let t := exprToString f.type
    match f.names with
    | [] => [("", t)]
    | ns => ns.map (fun n => (n, t)))

/-- zeroValues from superast.go: string-valued zero literals, with the
zero string "" for a type outside the map (comma-ok form). -/
def zeroValuesS : String → String
  | "int" => "0"
  | "double" => "0.0"
  | "char" => "\x27\\0\x27"
  | "string" => "\"\""
  | _ => ""

/-- addStmt from superast.go: guarded, appending to the innermost open
statement list; an empty stack is silently ignored. -/
def addStmtS (st : SState) (s : SStmt) : Option SState :=
  match st.stack with
  | [] => some st
  | k :: _ => (appendStore st.store k s).map (fun σ => { st with store := σ })

/-- pushStmts from superast.go, together with creating the pushed list's
store entry at its key. -/
def pushStmtsS (st : SState) (k : Nat) : SState :=
  { st with store := st.store ++ [(k, [])], stack := k :: st.stack }

/-- popStmts from superast.go: guarded, a no-op on an empty stack. -/
def popStmtsS (st : SState) : SState :=
  match st.stack with
  | [] => st
  | _ :: t => { st with stack := t }

/-- The DeclStmt arm's per-ValueSpec loop in superast.go: one
variable-declaration statement per name, the Init always present and
holding either the zero-value text or exprToString of Values[i] (an
out-of-range index is a panic). -/
def valueSpecLoopS (st : SState) (t : String) (values : Option (List GoExpr)) :
    Nat → List String → Option SState
  | _, [] => some st
  | i, n :: rest => do
    let v : String ←
      match values with
      | none => some (zeroValuesS t)
      | some vs =>
        match vs[i]? with
        | none => none
        | some e => some (exprToString e)
    let st' ← addStmtS { st with curID := st.curID + 3 }
      (.varS st.curID n (st.curID + 1) t (st.curID + 2) t v)
    valueSpecLoopS st' t values (i + 1) rest

/-- The DeclStmt arm's outer loop over gd.Specs of superast.go. -/
def declSpecLoopS (st : SState) : List GoSpec → Option SState
  | [] => some st
  | .valueSpec typ names values :: rest => do
    let st' ← valueSpecLoopS st (exprToString (typ.getD .otherExpr)) values 0 names
    declSpecLoopS st' rest
  | _ :: rest => declSpecLoopS st rest

/-- The AssignStmt arm of superast.go: pair each left-hand side with
Rhs[i] (out of range = panic), type-assert it to a basic literal with the
error ignored and dereference the result (a non-literal right-hand side
is a nil dereference panic), and emit a variable-declaration with the
literal's type name and unquoted text. -/
def assignLoopS (st : SState) (rhs : List GoExpr) :
    Nat → List GoExpr → Option SState
  | _, [] => some st
  | i, l :: ls => do
    let r ← rhs[i]?
    match r with
    | .basicLit k v =>
      let typeName := (basicLitName k).getD ""
      let st' ← addStmtS { st with curID := st.curID + 3 }
        (.varS st.curID (exprToString l) (st.curID + 1) typeName
          (st.curID + 2) typeName (strUnquote v))
      assignLoopS st' rhs (i + 1) ls
    | _ => none

/-- The attribute/parameter loop of superast.go (two fresh ids per
entry: the varDecl's and its dataType's). -/
def sParamLoop (c : Nat) : List (String × String) → List SParam × Nat
  | [] => ([], c)
  | (n, t) :: rest =>
    let q := sParamLoop (c + 2) rest
    (⟨c, n, c + 1, t⟩ :: q.1, q.2)

mutual
/-- One statement node of the superast.go traversal.  Only ExprStmt,
BlockStmt, DeclStmt and AssignStmt have arms (BlockStmt's is empty and
its exit pops nothing in this snapshot); every other statement kind hits
the default arm and is skipped without descending. -/
def walkStmtS (st : SState) : GoStmt → Option SState
  | .exprStmt x => walkExprNodeS st false x
  | .blockStmt body => walkStmtsS st body
  | .declStmt specs => do
    -- the arm falls through, descending into the GenDecl's specs, where
    -- ValueSpecs hit the default arm and only TypeSpecs do anything
    let st' ← declSpecLoopS st specs
    walkSpecsS st' specs
  | .assign _ lhs rhs => assignLoopS st rhs 0 lhs
  | _ => some st

/-- An expression visited as a node in superast.go.  parentIsCall records
whether the enclosing pushed node is a CallExpr (the only condition under
which a bare identifier is emitted). -/
def walkExprNodeS (st : SState) (parentIsCall : Bool) : GoExpr → Option SState
  | .ident n =>
    if parentIsCall then
      addStmtS { st with curID := st.curID + 1 } (.identS st.curID n)
    else some st
  | .basicLit _ v =>
    addStmtS { st with curID := st.curID + 1 } (.litS st.curID (strUnquote v))
  | .callExpr fn args => do
    let name := exprToString fn
    let name := (funcNames name).getD name
    let cId := st.curID
    let st1 ← addStmtS { st with curID := cId + 1 } (.callS cId name)
    let st2 := pushStmtsS st1 cId
    -- children: Fun then Args, each with the CallExpr as parent
    let st3 ← walkExprNodeS st2 true fn
    let st4 ← walkExprListS st3 args
    -- exit of the CallExpr pops the Args list
    pure (popStmtsS st4)
  | .selectorExpr x sel => do
    -- empty arm: descend into X and Sel with the SelectorExpr as parent;
    -- Sel is an Ident whose parent is not a CallExpr, so its visit is a
    -- no-op (the Ident arm emits only under a CallExpr parent)
    let st1 ← walkExprNodeS st false x
    let _ := sel
    pure st1
  | _ => some st

/-- Argument list of a CallExpr (all children of the call). -/
def walkExprListS (st : SState) : List GoExpr → Option SState
  | [] => some st
  | e :: rest => do
    let st' ← walkExprNodeS st true e
    walkExprListS st' rest

/-- walkStmtList for superast.go. -/
def walkStmtsS (st : SState) : List GoStmt → Option SState
  | [] => some st
  | s :: rest => do
    let st' ← walkStmtS st s
    walkStmtsS st' rest

/-- The TypeSpec arm of superast.go (reached as a GenDecl child): a
struct type emits a structDecl; everything else is skipped. -/
def walkSpecS (st : SState) : GoSpec → Option SState
  | .typeSpecStruct name fields =>
    let p := sParamLoop (st.curID + 1) (flattenFieldListS fields)
    addStmtS { st with curID := p.2 } (.structS st.curID name p.1)
  | _ => some st

/-- Specs of a GenDecl. -/
def walkSpecsS (st : SState) : List GoSpec → Option SState
  | [] => some st
  | s :: rest => do
    let st' ← walkSpecS st s
    walkSpecsS st' rest
end

/-- The FuncDecl arm of superast.go: ids for the statement, its return
type and its block, then two per parameter; zero results give return
type "void", one gives its type name, more leave it empty.  The body
block's list is pushed at entry and popped at the FuncDecl's exit
(unconditionally, unlike the visitor.go snapshot). -/
def walkFuncDeclS (st : SState) (name : String)
    (params results : List GoField) (body : Option (List GoStmt)) :
    Option SState := do
  let fnId := st.curID
  let retId := fnId + 1
  let blockId := fnId + 2
  let p := sParamLoop (fnId + 3) (flattenFieldListS params)
  let retName :=
    match flattenFieldListS results with
    | [] => "void"
    | [(_, t)] => t
    | _ => ""
  let st1 ← addStmtS { st with curID := p.2 }
    (.funcS fnId name retId retName p.1 blockId)
  let st2 := pushStmtsS st1 blockId
  let st3 ←
    match body with
    | none => pure st2
    | some l => walkStmtsS st2 l
  pure (popStmtsS st3)

/-- One top-level declaration of superast.go. -/
def walkDeclS (st : SState) : GoDecl → Option SState
  | .funcDecl name params results body => walkFuncDeclS st name params results body
  | .genDecl specs => walkSpecsS st specs

/-- The declaration list. -/
def walkDeclsS (st : SState) : List GoDecl → Option SState
  | [] => some st
  | d :: rest => do
    let st' ← walkDeclS st d
    walkDeclsS st' rest

/-- The allowedImports set of superast.go. -/
def allowedImports (p : String) : Bool :=
  p = "fmt" || p = "log"

/-- The fatal message for a package name other than "main". -/
def pkgFatalMsg (pname : String) : String :=
  "Package name is not \"main\": \"" ++ pname ++ "\""

/-- The fatal message for a disallowed import path. -/
def importFatalMsg (path : String) : String :=
  "Import path not allowed: \"" ++ path ++ "\""

/-- The first import (in declaration order) whose unquoted path is not
allow-listed, as found by the gate's loop. -/
def firstBadImport : List String → Option String
  | [] => none
  | p :: rest =>
    if allowedImports (strUnquote p) then firstBadImport rest
    else some (strUnquote p)

/-- Result of one superast.go run: log.Fatalf terminates the process
(carrying the message and the state at that point), a runtime panic
aborts it, otherwise the traversal finishes with a final state. -/
inductive SResult where
  | fatal (msg : String) (st : SState)
  | panicked
  | done (st : SState)
deriving DecidableEq, Repr

/-- The state built by superast.go's NewAST: curID starts at 1, the root
block explicitly takes id 0 and is the only open statement list. -/
def initS : SState :=
  { curID := 1, store := [(0, [])], stack := [0] }

/-- ast.Walk(NewAST(fset), f) for the superast.go snapshot: the *ast.File
arm runs first and validates the package name and every import path
before any declaration is walked; on violation log.Fatalf terminates the
run with the offending name or path in the message. -/
def runS (f : GoFile) : SResult :=
  if f.pkg ≠ "main" then .fatal (pkgFatalMsg f.pkg) initS
  else
    match firstBadImport f.imports with
    | some p => .fatal (importFatalMsg p) initS
    | none =>
      match walkDeclsS initS f.decls with
      | none => .panicked
      | some st => .done st

/-! ## Resolving the superast.go store into an output tree -/

/-- The serialized output tree of the superast.go snapshot: statements
with their owned argument lists and blocks spliced back in. -/
inductive STree where
  | identT (id : Nat) (value : String)
  | litT (id : Nat) (value : String)
  | callT (id : Nat) (name : String) (args : List STree)
  | funcT (id : Nat) (name : String) (retId : Nat) (retName : String)
      (params : List SParam) (blockId : Nat) (block : List STree)
  | varT (id : Nat) (name : String) (dtId : Nat) (dtName : String)
      (initId : Nat) (initType initValue : String)
  | structT (id : Nat) (name : String) (attrs : List SParam)
deriving Repr

/-- Splice the store contents of a statement's owned lists back into it
(fuel-bounded; every reachable list is finitely nested, and the id
counter bounds the nesting depth). -/
def resolveS (store : List (Nat × List SStmt)) : Nat → SStmt → Option STree
  | 0, _ => none
  | fuel + 1, s =>
    match s with
    | .identS i v => some (.identT i v)
    | .litS i v => some (.litT i v)
    | .callS i n =>
      (lookupStore store i).bind fun l =>
        (l.mapM (resolveS store fuel)).map (.callT i n)
    | .funcS i n ri rn ps b =>
      (lookupStore store b).bind fun l =>
        (l.mapM (resolveS store fuel)).map (.funcT i n ri rn ps b)
    | .varS i n di dn ii it iv => some (.varT i n di dn ii it iv)
    | .structS i n a => some (.structT i n a)

/-- The whole serialized output of one superast.go run: the root block's
statements with every owned list resolved; none when the run did not
finish normally. -/
def sOutput (f : GoFile) : Option (List STree) :=
  match runS f with
  | .done st =>
    (lookupStore st.store 0).bind fun l => l.mapM (resolveS st.store st.curID)
  | _ => none

/-! ## Id collection, invariants, well-formedness, claim inputs -/

mutual
/-- All node ids occurring in an IR expression, in construction order. -/
def exprIds : VExpr → List Nat
  | .identifier i _ _ => [i]
  | .unary i _ e => i :: exprIdsO e
  | .binary i _ l r => i :: (exprIdsO l ++ exprIdsO r)
  | .funcCall i _ args => i :: exprIdsL args
  | .errorNode i _ _ _ => [i]

/-- Ids of an optional expression. -/
def exprIdsO : Option VExpr → List Nat
  | none => []
  | some e => exprIds e

/-- Ids of an argument list. -/
def exprIdsL : List (Option VExpr) → List Nat
  | [] => []
  | e :: rest => exprIdsO e ++ exprIdsL rest
end

/-- All ids of a data type, root first. -/
def dtIds : VDataType → List Nat
  | .mk i _ none => [i]
  | .mk i _ (some s) => i :: dtIds s

/-- Ids of an optional data type. -/
def dtIdsO : Option VDataType → List Nat
  | none => []
  | some d => dtIds d

/-- Ids of a varDecl: its own, its data type's, its Init's. -/
def varDeclIds (v : VVarDecl) : List Nat :=
  v.id :: (dtIdsO v.dataType ++ exprIdsO v.init)

/-- Ids of an IR statement.  A referenced block id is counted by the
block's own store entry, not here. -/
def stmtIds : VStmt → List Nat
  | .exprS e => exprIds e
  | .nilS => []
  | .structDecl i _ attrs => i :: attrs.flatMap varDeclIds
  | .funcDecl i _ rt ps _ => i :: (dtIdsO rt ++ ps.flatMap varDeclIds)
  | .varDecl v => varDeclIds v
  | .retStmt i e => i :: exprIdsO e
  | .conditional i c _ _ => i :: exprIdsO c
  | .forStmt i _ c _ => i :: exprIdsO c

/-- The keys of a store, in order. -/
def storeKeys {α : Type} (store : List (Nat × List α)) : List Nat :=
  store.map Prod.fst

/-- Every id in a store: each block's id (its key) followed by the ids
of its statements. -/
def storeIds (store : List (Nat × List VStmt)) : List Nat :=
  store.flatMap (fun kl => kl.1 :: kl.2.flatMap stmtIds)

/-- Every id allocated so far and reachable from the state. -/
def allIds (st : VState) : List Nat :=
  storeIds st.store

/-- The run invariant of the visitor.go machine: store keys are distinct,
no id occurs twice anywhere in the state, every id is below the counter,
and every stacked key has a store entry. -/
structure VInv (st : VState) : Prop where
  keys_nodup : (storeKeys st.store).Nodup
  ids_nodup : (allIds st).Nodup
  ids_lt : ∀ i ∈ allIds st, i < st.curID
  stack_sub : ∀ k ∈ st.stack, k ∈ storeKeys st.store

/-- The property claimed for every disallowed construct: walking it from
any state appends exactly one leaf errorNode with the fixed value string
and the given category description to the active block, allocates exactly
one id, leaves the scope stack and every other block untouched, and never
descends into the construct. -/
def emitsInvalid (st : VState) (k : Nat) (old : List VStmt)
    (s : GoStmt) (desc : String) : Prop :=
  ∃ st', walkStmt st s = some st' ∧
    st'.curID = st.curID + 1 ∧
    st'.stack = st.stack ∧
    lookupStore st'.store k =
      some (old ++ [.exprS (.errorNode st.curID "error"
        "Unsupported statement or expression" desc)]) ∧
    ∀ k', k' ≠ k → lookupStore st'.store k' = lookupStore st.store k'

/-- The hello-world source unit of the end-to-end scenario: package main
importing "fmt", func main() with the single fmt.Println call. -/
def helloWorldGo : GoFile :=
  { pkg := "main", imports := ["\"fmt\""],
    decls := [
      .genDecl [.importSpec "\"fmt\""],
      .funcDecl "main" [] [] (some [
        .exprStmt (.callExpr (.selectorExpr (.ident "fmt") "Println")
          [.basicLit .string "\"Hello, World!\""])])] }

/-- newID from visitor.go: return the current counter and increment it.
Modelled as a counter transformer: the allocated id and the next counter. -/
def newID (c : Nat) : Nat × Nat := (c, c + 1)

/-- n successive calls of newID starting from counter c: the list of returned
ids and the final counter. -/
def allocRun (c : Nat) : Nat → List Nat × Nat
  | 0 => ([], c)
  | n + 1 =>
    let p := newID c
    let q := allocRun p.2 n
    (p.1 :: q.1, q.2)

/-- A unit whose first function ends in an if whose else branch is again
an if statement (Go renders `else if` as an IfStmt directly in Else, not
wrapped in a BlockStmt), followed by a second function. -/
def elseIfGo : GoFile :=
  GoFile.mk "main" [] [
    .funcDecl "f" [] [] (some [
      .ifStmt [] (.ident "c") [] [.ifStmt [] (.ident "d") [] []]]),
    .funcDecl "g" [] [] (some [])]

/-- A unit whose first function ends in an if/else whose else branch is a
block statement (the shape Go produces for a literal else branch),
followed by a second function. -/
def wfIfGo : GoFile :=
  GoFile.mk "main" [] [
    .funcDecl "f" [] [] (some [
      .ifStmt [] (.ident "c") [.returnStmt []] [.blockStmt [.returnStmt []]]]),
    .funcDecl "g" [] [] (some [])]

/-- The shape of one emitted varDecl for a flattened (name, type) pair of
an initializer-less declaration: matching name and type name, and an Init
exactly when the type name has a zero value in the table. -/
def zeroDefaulted (nt : String × DT0) (d : VStmt) : Prop :=
  ∃ v : VVarDecl, d = .varDecl v ∧ v.name = nt.1 ∧
    (∃ dt : VDataType, v.dataType = some dt ∧ dt.name = nt.2.name) ∧
    ((zeroValues nt.2.name = none ∧ v.init = none) ∨
     (∃ gv iid, zeroValues nt.2.name = some gv ∧
        v.init = some (.identifier iid nt.2.name gv)))

/-! ## The faithful pop dispatch: visitor.go's node stack

AST.Visit pushes every node it descends into onto a node stack (pushNode
at the end of the entry switch), and the Visit(nil) exit decides whether
to pop a scope by the top of that stack: it pops a block exactly when
curNode() is a BlockStmt, then pops the node entry.  The if arm pushes
its node TWICE when an else branch exists (once beside the else block
push, once at the switch end), while ast.Walk issues exactly one closing
Visit(nil) per node, so every walked if-with-else leaves one stray
IfStmt entry that shifts every later pop decision. -/

/-- The node kinds AST.Visit descends into (every other arm returns nil
and is never pushed).  The exit dispatch only distinguishes blockN. -/
inductive NodeK where
  | fileN | funcN | blockN | exprN | genN | ifN | forN
deriving Repr, DecidableEq

/-- visitor.go state with the node stack kept: the counter, store and
scope stack of VState plus nodeStack (head = top). -/
structure NState where
  v : VState
  nodes : List NodeK
deriving Repr

/-- Lift a node-free Visit arm (one that returns nil in Go and never
touches the node stack) to NState. -/
def liftN (f : VState → Option VState) (st : NState) : Option NState :=
  (f st.v).map (fun v => NState.mk v st.nodes)

/-- pushNode at the end of the entry switch. -/
def pushNodeN (st : NState) (k : NodeK) : NState :=
  { st with nodes := k :: st.nodes }

/-- pushBlock on the carried visitor state. -/
def pushBlockN (st : NState) (k : Nat) : NState :=
  { st with v := pushBlock st.v k }

/-- The Visit(nil) exit: pop a block exactly when curNode() is a
BlockStmt, then pop the node entry.  curNode() on an empty node stack,
like popBlock on an empty block stack, is a panic (none). -/
def exitNode (st : NState) : Option NState :=
  match st.nodes with
  | [] => none
  | .blockN :: rest =>
    (match st.v.stack with
     | [] => none
     | _ :: t => some ⟨{ st.v with stack := t }, rest⟩)
  | _ :: rest => some ⟨st.v, rest⟩

mutual
/-- One statement node under the faithful dispatch: the same entry
effects and child order as walkStmt, but every descended node pushed on
the node stack, each pop decided by exitNode, and the if-with-else arm
pushing its node twice against the single closing Visit(nil). -/
def walkStmtN (st : NState) : GoStmt → Option NState
  | .exprStmt x => do
    let st1 ← liftN (fun v => walkExprNode v x) (pushNodeN st .exprN)
    exitNode st1
  | .declStmt specs => liftN (fun v => declSpecLoop v specs) st
  | .assign tok lhs rhs => liftN (fun v => assignLoop v tok rhs 0 lhs) st
  | .returnStmt results =>
    liftN (fun v =>
      match results with
      | [] => addStmt { v with curID := v.curID + 1 } (.retStmt v.curID none)
      | e :: _ =>
        let p := parseExpr (v.curID + 1) e
        addStmt { v with curID := p.2 } (.retStmt v.curID p.1)) st
  | .incDec inc x =>
    liftN (fun v =>
      let p := parseExpr (v.curID + 1) x
      addStmt { v with curID := p.2 }
        (.exprS (.unary v.curID (if inc then "_++" else "_--") p.1))) st
  | .ifStmt init cond body els => do
    let cId := st.v.curID
    let p := parseExpr (cId + 1) cond
    let thenId := p.2
    let st1 ←
      match els with
      | [] => do
        let s ← liftN (fun v => addStmt { v with curID := thenId + 1 }
          (.conditional cId p.1 thenId none)) st
        pure (pushNodeN (pushBlockN s thenId) .ifN)
      | _ => do
        let elseId := thenId + 1
        let s ← liftN (fun v => addStmt { v with curID := elseId + 1 }
          (.conditional cId p.1 thenId (some elseId))) st
        -- pushBlock(Else); pushNode(node); pushBlock(Then); then the
        -- switch-end pushNode: the IfStmt enters the node stack twice
        pure (pushNodeN (pushBlockN
          (pushNodeN (pushBlockN s elseId) .ifN) thenId) .ifN)
    let st2 ← walkStmtsN st1 init
    let st3 ← liftN (fun v => walkExprNode v cond) st2
    -- the Body BlockStmt node: pushed, its statements, one exit
    let st4a ← walkStmtsN (pushNodeN st3 .blockN) body
    let st4 ← exitNode st4a
    let st5 ← walkStmtsN st4 els
    exitNode st5
  | .forStmt init cond post body => do
    let fId := st.v.curID
    let p :=
      match cond with
      | none => ((none : Option VExpr), fId + 1)
      | some e => parseExpr (fId + 1) e
    let blockId := p.2
    let typ := if init.isEmpty && post.isEmpty then "while" else "for"
    let st1 ← liftN (fun v => addStmt { v with curID := blockId + 1 }
      (.forStmt fId typ p.1 blockId)) st
    let st2 := pushNodeN (pushBlockN st1 blockId) .forN
    let st3 ← walkStmtsN st2 init
    let st4 ←
      match cond with
      | none => pure st3
      | some e => liftN (fun v => walkExprNode v e) st3
    let st5 ← walkStmtsN st4 post
    let st6a ← walkStmtsN (pushNodeN st5 .blockN) body
    let st6 ← exitNode st6a
    exitNode st6
  | .blockStmt body => do
    let st1 ← walkStmtsN (pushNodeN st .blockN) body
    exitNode st1
  | .branchStmt _ =>
    liftN (fun v => addInvalid v "branch statements not supported") st
  | .rangeStmt _ =>
    liftN (fun v => addInvalid v "range statements not supported") st
  | .sendStmt _ _ =>
    liftN (fun v => addInvalid v "send statements not supported") st
  | .switchStmt _ =>
    liftN (fun v => addInvalid v "switch statements not supported") st
  | .deferStmt _ =>
    liftN (fun v => addInvalid v "defer statements not supported") st
  | .goStmt _ =>
    liftN (fun v => addInvalid v "go statements not supported") st
  | .otherStmt => some st

/-- walkStmtList of ast.Walk under the faithful dispatch. -/
def walkStmtsN (st : NState) : List GoStmt → Option NState
  | [] => some st
  | s :: rest => do
    let st1 ← walkStmtN st s
    walkStmtsN st1 rest
end

/-- A BlockStmt node: empty entry arm, node pushed, the statements, one
exit (which pops whatever block is active if the node-stack top happens
to be a BlockStmt entry at that moment). -/
def walkBlockN (st : NState) (l : List GoStmt) : Option NState := do
  let st1 ← walkStmtsN (pushNodeN st .blockN) l
  exitNode st1

/-- FuncDecl under the faithful dispatch: the entry of walkFuncDecl, the
node pushed, a nil body walking nothing, and the single FuncDecl exit. -/
def walkFuncDeclN (st : NState) (name : String)
    (params results : List GoField) (body : Option (List GoStmt)) :
    Option NState := do
  let retType0 : DT0 :=
    match flattenFieldList results with
    | [(_, dt)] => dt
    | _ => .mk "void" none
  let dId := st.v.curID
  let p := assignIdToDataType (dId + 1) (some retType0)
  let blockId := p.2
  let q := varDeclLoop (blockId + 1) (flattenFieldList params)
  let st1 ← liftN (fun v => addStmt { v with curID := q.2 }
    (.funcDecl dId name p.1 q.1 blockId)) st
  let st2 := pushNodeN (pushBlockN st1 blockId) .funcN
  let st3 ←
    match body with
    | none => pure st2
    | some l => walkBlockN st2 l
  exitNode st3

/-- One top-level declaration under the faithful dispatch.  GenDecl has
an empty arm, so its node is pushed and one exit closes it. -/
def walkDeclN (st : NState) : GoDecl → Option NState
  | .funcDecl name params results body =>
    walkFuncDeclN st name params results body
  | .genDecl specs => do
    let st1 ← liftN (fun v => walkSpecs v specs) (pushNodeN st .genN)
    exitNode st1

/-- The declaration list of a file under the faithful dispatch. -/
def walkDeclsN (st : NState) : List GoDecl → Option NState
  | [] => some st
  | d :: rest => do
    let st1 ← walkDeclN st d
    walkDeclsN st1 rest

/-- ast.Walk(NewAST(fset), f) with the node stack kept: the File arm is
empty, the File node is pushed, the declarations are walked, and the
File node's own exit runs last. -/
def runN (f : GoFile) : Option NState := do
  let st1 ← walkDeclsN (pushNodeN ⟨initV, []⟩ .fileN) f.decls
  exitNode st1

/-- Two sibling if/else statements inside the first function's body,
then a second function. -/
def sibIfGo : GoFile :=
  GoFile.mk "main" [] [
    .funcDecl "f" [] [] (some [
      .ifStmt [] (.ident "a") [] [.blockStmt []],
      .ifStmt [] (.ident "b") [] [.blockStmt []]]),
    .funcDecl "g" [] [] (some [])]

/-- An if/else nested inside a then branch; the outer else branch holds
a return statement. -/
def nestIfGo : GoFile :=
  GoFile.mk "main" [] [
    .funcDecl "f" [] [] (some [
      .ifStmt [] (.ident "a")
        [.ifStmt [] (.ident "b") [] [.blockStmt []]]
        [.blockStmt [.returnStmt []]]])]

/-! ## Store lemmas -/

theorem lookupStore_isSome_iff {α : Type} (store : List (Nat × List α)) (k : Nat) :
    (lookupStore store k).isSome ↔ k ∈ storeKeys store := by
  induction store with
  | nil => simp [lookupStore, storeKeys]
  | cons hd tl ih =>
    obtain ⟨k', l⟩ := hd
    simp only [lookupStore, storeKeys, List.map_cons, List.mem_cons]
    by_cases h : k' = k
    · simp [h]
    · simp only [if_neg h, ih, storeKeys]
      constructor
      · exact Or.inr
      · rintro (rfl | hk)
        · exact absurd rfl h
        · exact hk

theorem appendStore_isSome_iff {α : Type} (store : List (Nat × List α))
    (k : Nat) (s : α) :
    (appendStore store k s).isSome ↔ k ∈ storeKeys store := by
  induction store with
  | nil => simp [appendStore, storeKeys]
  | cons hd tl ih =>
    obtain ⟨k', l⟩ := hd
    simp only [appendStore, storeKeys, List.map_cons, List.mem_cons]
    by_cases h : k' = k
    · simp [h]
    · rw [if_neg h]
      have hm : (Option.map (fun x => (k', l) :: x) (appendStore tl k s)).isSome
          = (appendStore tl k s).isSome := Option.isSome_map ..
      rw [hm, ih]
      simp only [storeKeys]
      constructor
      · exact Or.inr
      · rintro (rfl | hk)
        · exact absurd rfl h
        · exact hk

theorem appendStore_keys {α : Type} {store σ : List (Nat × List α)}
    {k : Nat} {s : α} (h : appendStore store k s = some σ) :
    storeKeys σ = storeKeys store := by
  induction store generalizing σ with
  | nil => simp [appendStore] at h
  | cons hd tl ih =>
    obtain ⟨k', l⟩ := hd
    by_cases hk : k' = k
    · rw [appendStore, if_pos hk] at h
      cases h
      simp [storeKeys]
    · rw [appendStore, if_neg hk] at h
      rcases hσ : appendStore tl k s with _ | σ'
      · rw [hσ] at h; cases h
      · rw [hσ] at h
        cases h
        have := ih hσ
        simp only [storeKeys, List.map_cons] at this ⊢
        rw [this]

theorem lookupStore_appendStore_self {α : Type} {store σ : List (Nat × List α)}
    {k : Nat} {s : α} (h : appendStore store k s = some σ) {old : List α}
    (hold : lookupStore store k = some old) :
    lookupStore σ k = some (old ++ [s]) := by
  induction store generalizing σ with
  | nil => simp [appendStore] at h
  | cons hd tl ih =>
    obtain ⟨k', l⟩ := hd
    by_cases hk : k' = k
    · rw [appendStore, if_pos hk] at h
      cases h
      rw [lookupStore, if_pos hk] at hold ⊢
      cases hold
      rfl
    · rw [appendStore, if_neg hk] at h
      rcases hσ : appendStore tl k s with _ | σ'
      · rw [hσ] at h; cases h
      · rw [hσ] at h
        cases h
        rw [lookupStore, if_neg hk] at hold ⊢
        exact ih hσ hold

theorem lookupStore_appendStore_ne {α : Type} {store σ : List (Nat × List α)}
    {k : Nat} {s : α} (h : appendStore store k s = some σ) (k' : Nat)
    (hne : k' ≠ k) : lookupStore σ k' = lookupStore store k' := by
  induction store generalizing σ with
  | nil => simp [appendStore] at h
  | cons hd tl ih =>
    obtain ⟨k₀, l⟩ := hd
    by_cases hk : k₀ = k
    · rw [appendStore, if_pos hk] at h
      cases h
      have : k₀ ≠ k' := by omega
      rw [lookupStore, if_neg this, lookupStore, if_neg this]
    · rw [appendStore, if_neg hk] at h
      rcases hσ : appendStore tl k s with _ | σ'
      · rw [hσ] at h; cases h
      · rw [hσ] at h
        cases h
        by_cases hk' : k₀ = k'
        · rw [lookupStore, if_pos hk', lookupStore, if_pos hk']
        · rw [lookupStore, if_neg hk', lookupStore, if_neg hk', ih hσ]

theorem lookupStore_append_right {α : Type} (store : List (Nat × List α))
    (entry : Nat × List α) (k : Nat) (h : k ∉ storeKeys store) :
    lookupStore (store ++ [entry]) k =
      (if entry.1 = k then some entry.2 else none) := by
  induction store with
  | nil =>
    obtain ⟨k', l⟩ := entry
    simp [lookupStore]
  | cons hd tl ih =>
    obtain ⟨k', l⟩ := hd
    simp only [storeKeys, List.map_cons, List.mem_cons, not_or] at h
    rw [List.cons_append, lookupStore, if_neg (by omega : ¬ k' = k)]
    exact ih h.2

theorem lookupStore_append_left {α : Type} (store : List (Nat × List α))
    (entry : Nat × List α) (k : Nat) (h : k ∈ storeKeys store) :
    lookupStore (store ++ [entry]) k = lookupStore store k := by
  induction store with
  | nil => simp [storeKeys] at h
  | cons hd tl ih =>
    obtain ⟨k', l⟩ := hd
    by_cases hk : k' = k
    · rw [List.cons_append, lookupStore, if_pos hk, lookupStore, if_pos hk]
    · simp only [storeKeys, List.map_cons, List.mem_cons] at h
      rcases h with h | h
      · exact absurd h.symm hk
      · rw [List.cons_append, lookupStore, if_neg hk, lookupStore, if_neg hk]
        exact ih h

/-! ## Behavior of addStmt and addInvalid on a well-placed state -/

theorem addStmt_spec {st : VState} {k : Nat} {old : List VStmt}
    (htop : st.stack.head? = some k)
    (hold : lookupStore st.store k = some old) (s : VStmt) :
    ∃ st', addStmt st s = some st' ∧ st'.curID = st.curID ∧
      st'.stack = st.stack ∧
      lookupStore st'.store k = some (old ++ [s]) ∧
      (∀ k', k' ≠ k → lookupStore st'.store k' = lookupStore st.store k') ∧
      storeKeys st'.store = storeKeys st.store := by
  obtain ⟨c, sto, stk⟩ := st
  rcases stk with _ | ⟨k0, rest⟩
  · cases htop
  · simp only [List.head?_cons, Option.some.injEq] at htop
    subst htop
    have hsome : (appendStore sto k0 s).isSome := by
      rw [appendStore_isSome_iff, ← lookupStore_isSome_iff]
      exact Option.isSome_iff_exists.mpr ⟨old, hold⟩
    obtain ⟨σ, hσ⟩ := Option.isSome_iff_exists.mp hsome
    exact ⟨⟨c, σ, k0 :: rest⟩, by simp [addStmt, hσ], rfl, rfl,
      lookupStore_appendStore_self hσ hold,
      fun k' hk' => lookupStore_appendStore_ne hσ k' hk',
      appendStore_keys hσ⟩

theorem addStmt_isSome {st : VState} {k : Nat}
    (htop : st.stack.head? = some k) (hk : k ∈ storeKeys st.store)
    (s : VStmt) : (addStmt st s).isSome := by
  obtain ⟨old, hold⟩ :=
    Option.isSome_iff_exists.mp ((lookupStore_isSome_iff st.store k).mpr hk)
  obtain ⟨st', h, -⟩ := addStmt_spec htop hold s
  simp [h]

theorem addStmt_frame {st st' : VState} {s : VStmt}
    (h : addStmt st s = some st') :
    st'.curID = st.curID ∧ st'.stack = st.stack ∧
      storeKeys st'.store = storeKeys st.store := by
  rcases hst : st.stack with _ | ⟨k0, rest⟩ <;>
    simp only [addStmt, hst] at h
  · cases h
  · rcases hσ : appendStore st.store k0 s with _ | σ <;> rw [hσ] at h
    · cases h
    · simp only [Option.map_some', Option.some.injEq] at h
      subst h
      exact ⟨rfl, rfl, appendStore_keys hσ⟩

theorem addInvalid_spec {st : VState} {k : Nat} {old : List VStmt}
    (htop : st.stack.head? = some k)
    (hold : lookupStore st.store k = some old) (desc : String) :
    ∃ st', addInvalid st desc = some st' ∧ st'.curID = st.curID + 1 ∧
      st'.stack = st.stack ∧
      lookupStore st'.store k =
        some (old ++ [.exprS (.errorNode st.curID "error"
          "Unsupported statement or expression" desc)]) ∧
      ∀ k', k' ≠ k → lookupStore st'.store k' = lookupStore st.store k' := by
  obtain ⟨st', h, hc, hs, hself, hother, -⟩ :=
    @addStmt_spec { st with curID := st.curID + 1 } _ _ htop hold
      (.exprS (.errorNode st.curID "error"
        "Unsupported statement or expression" desc))
  exact ⟨st', h, hc, hs, hself, hother⟩

/-! ## Claim C4: disallowed statement constructs -/

/-- C4: every disallowed statement construct (branch, range-for, channel
send, switch, defer, goroutine spawn) appends exactly one leaf ErrorNode
with its fixed category string to the active block, allocating exactly
one id, leaving the scope stack and every other block unchanged, and
never descending into the construct (the conclusion is independent of the
construct's children).  ErrorNode is a leaf by construction: the
errorNode variant of VExpr owns no child nodes. -/
theorem claim_C4 :
    ∀ (st : VState) (k : Nat) (old : List VStmt),
      st.stack.head? = some k → lookupStore st.store k = some old →
      (∀ lbl, emitsInvalid st k old (.branchStmt lbl)
          "branch statements not supported") ∧
      (∀ body, emitsInvalid st k old (.rangeStmt body)
          "range statements not supported") ∧
      (∀ ch v, emitsInvalid st k old (.sendStmt ch v)
          "send statements not supported") ∧
      (∀ body, emitsInvalid st k old (.switchStmt body)
          "switch statements not supported") ∧
      (∀ e, emitsInvalid st k old (.deferStmt e)
          "defer statements not supported") ∧
      (∀ e, emitsInvalid st k old (.goStmt e)
          "go statements not supported") := by
  intro st k old htop hold
  refine ⟨fun lbl => ?_, fun body => ?_, fun ch v => ?_, fun body => ?_,
    fun e => ?_, fun e => ?_⟩ <;>
  · obtain ⟨st', h, hc, hs, hself, hother⟩ := addInvalid_spec htop hold _
    exact ⟨st', by simpa [walkStmt] using h, hc, hs, hself, hother⟩

/-- Witness for C4 at a concrete state: the initial state's root block
receives the branch ErrorNode. -/
theorem claim_C4_witness :
    emitsInvalid ⟨1, [(0, [])], [0]⟩ 0 [] (.branchStmt "L")
      "branch statements not supported" :=
  (claim_C4 ⟨1, [(0, [])], [0]⟩ 0 [] rfl rfl).1 "L"

/-! ## Claim C1: the package/import gate of superast.go -/

theorem firstBadImport_eq_none {l : List String}
    (h : ∀ p ∈ l, allowedImports (strUnquote p)) :
    firstBadImport l = none := by
  induction l with
  | nil => rfl
  | cons p rest ih =>
    rw [firstBadImport, if_pos (h p (by simp))]
    exact ih fun q hq => h q (by simp [hq])

theorem firstBadImport_mem {l : List String} {q : String}
    (h : firstBadImport l = some q) :
    allowedImports q = false ∧ ∃ p ∈ l, strUnquote p = q := by
  induction l with
  | nil => simp [firstBadImport] at h
  | cons p rest ih =>
    by_cases hp : allowedImports (strUnquote p)
    · rw [firstBadImport, if_pos hp] at h
      obtain ⟨hq, p', hp', hup⟩ := ih h
      exact ⟨hq, p', by simp [hp'], hup⟩
    · rw [firstBadImport, if_neg hp] at h
      cases h
      exact ⟨by simpa using hp, p, by simp, rfl⟩

/-- C1: in the gate-implementing snapshot (superast.go's AST.Visit, the
cited lines), a file whose package name is not "main" terminates the run
fatally with the message naming that package name, and a file with a
disallowed import terminates fatally with the message naming the
offending (unquoted) path; in both cases the state carried at the fatal
point is the initial one, whose root block is empty, so no IR statement
was emitted before termination.  Conversely a file with package "main"
and only allow-listed imports never reaches a fatal exit, and
normalization proceeds. -/
theorem claim_C1 :
    (∀ f : GoFile, f.pkg ≠ "main" →
        runS f = .fatal (pkgFatalMsg f.pkg) initS) ∧
    (∀ f : GoFile, f.pkg = "main" →
        ∀ q, firstBadImport f.imports = some q →
          allowedImports q = false ∧ (∃ p ∈ f.imports, strUnquote p = q) ∧
          runS f = .fatal (importFatalMsg q) initS) ∧
    (lookupStore initS.store 0 = some []) ∧
    (∀ f : GoFile, f.pkg = "main" →
        (∀ p ∈ f.imports, allowedImports (strUnquote p)) →
        ∀ msg st, runS f ≠ .fatal msg st) := by
  refine ⟨fun f h => ?_, fun f h q hq => ?_, rfl, fun f h hall msg st => ?_⟩
  · rw [runS, if_pos h]
  · obtain ⟨hq1, hq2⟩ := firstBadImport_mem hq
    refine ⟨hq1, hq2, ?_⟩
    rw [runS, if_neg (by simp [h]), hq]
  · rw [runS, if_neg (by simp [h]), firstBadImport_eq_none hall]
    rcases hw : walkDeclsS initS f.decls with _ | st' <;> simp [hw]

/-- Witness for C1: a concrete file with package "foo" is rejected with
the message naming "foo"; a concrete file importing "os" is rejected with
the message naming "os"; the hello-world file passes the gate. -/
theorem claim_C1_witness :
    runS { pkg := "foo", imports := [], decls := [] } =
      .fatal (pkgFatalMsg "foo") initS ∧
    (allowedImports "os" = false ∧
      (∃ p ∈ ["\"os\""], strUnquote p = "os") ∧
      runS { pkg := "main", imports := ["\"os\""], decls := [] } =
        .fatal (importFatalMsg "os") initS) ∧
    ∀ msg st, runS helloWorldGo ≠ .fatal msg st :=
  ⟨claim_C1.1 _ (by decide),
   claim_C1.2.1 { pkg := "main", imports := ["\"os\""], decls := [] } rfl
     "os" (by decide),
   claim_C1.2.2.2 helloWorldGo rfl (by decide)⟩

/-! ## Claim C5: the hello-world end-to-end scenario -/

/-- C5: the hello-world source unit normalizes, in the snapshot carrying
the funcNames rename table (superast.go), to a root block holding exactly
one function-declaration named "main" with an empty parameter list and
return type "void" (the policy of this snapshot: zero results map to
"void" with no special case for the entry function), whose body block
holds exactly one function-call whose name is the canonical builtin
"print" (the rename table maps fmt.Println to it) with exactly one
argument of kind "string" and value "Hello, World!". -/
theorem claim_C5 :
    sOutput helloWorldGo =
      some [.funcT 1 "main" 2 "void" [] 3
        [.callT 4 "print" [.litT 5 "Hello, World!"]]] := rfl

/-! ## Claim C6: parsed literal scalars -/

/-- C6 (code evaluated at the failing input): exprValue maps an INT
literal text to a parsed integer and a STRING literal to its unquoted,
unescaped contents — the source text "a\nb" (with a backslash-n escape)
yields a value with a real newline between a and b — and the kind of each
literal is its scalar type name; but every CHAR literal maps to rune 0,
not its code point, because exprValue hands the still-quoted literal text
to strconv.UnquoteChar, whose first byte is the quote character itself,
so it reports ErrSyntax and the error is discarded: the claim's "char
unescaped to its code point" is the documented intent and the code
deviates from it on every char literal. -/
theorem claim_C6 :
    (∀ c v, parseExpr c (.basicLit .char v) =
        (some (.identifier c "char" (.rune (goUnquoteChar v))), c + 1)) ∧
    (∀ v : String, v.toList.head? = some '\x27' → goUnquoteChar v = 0) ∧
    (litValue .char "\x27a\x27" = .rune 0) ∧
    (litValue .string "\"a\\nb\"" = .str "a\nb") ∧
    (litValue .int "42" = .int 42) ∧
    (∀ c v, parseExpr c (.basicLit .float v) =
        (some (.identifier c "double" (.float (goParseFloat v))), c + 1)) ∧
    (∀ c v, parseExpr c (.basicLit .int v) =
        (some (.identifier c "int" (.int (goParseInt v))), c + 1)) ∧
    (∀ c v, parseExpr c (.basicLit .string v) =
        (some (.identifier c "string"
          (.str ((goUnquote v).getD ""))), c + 1)) := by
  refine ⟨fun c v => rfl, fun v hv => ?_, by decide, by decide, by decide,
    fun c v => rfl, fun c v => rfl, fun c v => rfl⟩
  rcases hl : v.toList with _ | ⟨c, rest⟩
  · rw [goUnquoteChar, hl]
  · rw [hl] at hv
    simp only [List.head?_cons, Option.some.injEq] at hv
    subst hv
    simp only [String.toList] at hl
    simp [goUnquoteChar, hl]

/-- Witness for C6: the char literal text of 'a', which begins with the
quote character, evaluates to rune 0 (the claim expects code point 97). -/
theorem claim_C6_witness :
    ("\x27a\x27" : String).toList.head? = some '\x27' ∧
      goUnquoteChar "\x27a\x27" = 0 :=
  ⟨by decide, claim_C6.2.1 "\x27a\x27" (by decide)⟩

/-! ## Claim C10: the assignment handler's positional indexing -/

theorem assignLoop_isSome {tok : AssignTok} {rhs : List GoExpr} :
    ∀ (lhs : List GoExpr) (i : Nat) (st : VState) (k : Nat),
      st.stack.head? = some k → k ∈ storeKeys st.store →
      i + lhs.length ≤ rhs.length →
      (assignLoop st tok rhs i lhs).isSome := by
  intro lhs
  induction lhs with
  | nil => intro i st k _ _ _; simp [assignLoop]
  | cons l ls ih =>
    intro i st k htop hk hlen
    simp only [List.length_cons] at hlen
    have hi : i < rhs.length := by omega
    have hrr : rhs[i]? = some rhs[i] := List.getElem?_eq_getElem hi
    cases tok with
    | define =>
      have hadd := @addStmt_isSome
        { st with curID :=
          (parseExpr (assignIdToDataType (st.curID + 1)
            (some (exprType rhs[i]))).2 rhs[i]).2 } _
        htop hk
        (.varDecl ⟨st.curID, exprString l,
          (assignIdToDataType (st.curID + 1) (some (exprType rhs[i]))).1,
          (parseExpr (assignIdToDataType (st.curID + 1)
            (some (exprType rhs[i]))).2 rhs[i]).1⟩)
      obtain ⟨st', hst'⟩ := Option.isSome_iff_exists.mp hadd
      obtain ⟨-, hstk, hkeys⟩ := addStmt_frame hst'
      have := ih (i + 1) st' k (by rw [hstk]; exact htop)
        (by rw [hkeys]; exact hk) (by omega)
      simpa [assignLoop, hrr, hst'] using this
    | other s =>
      have hadd := @addStmt_isSome
        { st with curID :=
          (parseExpr (parseExpr (st.curID + 1) l).2 rhs[i]).2 } _
        htop hk
        (.exprS (.binary st.curID s (parseExpr (st.curID + 1) l).1
          (parseExpr (parseExpr (st.curID + 1) l).2 rhs[i]).1))
      obtain ⟨st', hst'⟩ := Option.isSome_iff_exists.mp hadd
      obtain ⟨-, hstk, hkeys⟩ := addStmt_frame hst'
      have := ih (i + 1) st' k (by rw [hstk]; exact htop)
        (by rw [hkeys]; exact hk) (by omega)
      simpa [assignLoop, hrr, hst'] using this

/-- C10: the assignment handler pairs left-hand sides with right-hand
sides positionally with no bounds check (and the superast.go variant
additionally type-asserts the right-hand side to a basic literal and
dereferences the result without a nil check): it is total whenever the
right-hand list is at least as long as the left-hand list, and on the
syntactically valid multi-value assignment x, y := f() the visitor.go
handler's index access is out of bounds (and the superast.go handler
dereferences nil), a runtime panic, modelled as none. -/
theorem claim_C10 :
    (∀ (st : VState) (k : Nat) (tok : AssignTok) (lhs rhs : List GoExpr),
        st.stack.head? = some k → k ∈ storeKeys st.store →
        lhs.length ≤ rhs.length →
        (walkStmt st (.assign tok lhs rhs)).isSome) ∧
    (walkStmt ⟨1, [(0, [])], [0]⟩
        (.assign .define [.ident "x", .ident "y"]
          [.callExpr (.ident "f") []]) = none) ∧
    (walkStmtS ⟨1, [(0, [])], [0]⟩
        (.assign .define [.ident "x", .ident "y"]
          [.callExpr (.ident "f") []]) = none) := by
  refine ⟨fun st k tok lhs rhs htop hk hlen => ?_, rfl, rfl⟩
  have := @assignLoop_isSome tok rhs lhs 0 st k htop hk
    (by omega)
  simpa [walkStmt] using this

/-- Witness for C10: a single assignment with a literal right-hand side
succeeds from the initial state. -/
theorem claim_C10_witness :
    (walkStmt ⟨1, [(0, [])], [0]⟩
      (.assign .define [.ident "x"] [.basicLit .int "1"])).isSome :=
  claim_C10.1 ⟨1, [(0, [])], [0]⟩ 0 .define _ _ rfl (by decide) (by decide)

/-! ## Claim C7: zero-value defaulting in declaration statements -/

theorem assignIdDT_root (c : Nat) (d : DT0) :
    ((assignIdDT c d).1).name = d.name ∧ ((assignIdDT c d).1).id = c := by
  cases d with
  | mk n sub =>
    cases sub <;>
      simp [assignIdDT, VDataType.name, VDataType.id, DT0.name]

theorem valueSpecLoop_shape :
    ∀ (flat : List (String × DT0)) (i : Nat) (st : VState) (k : Nat)
      (old : List VStmt),
      st.stack.head? = some k → lookupStore st.store k = some old →
      ∃ st' ds, valueSpecLoop st none i flat = some st' ∧
        st'.stack = st.stack ∧ storeKeys st'.store = storeKeys st.store ∧
        lookupStore st'.store k = some (old ++ ds) ∧
        (∀ k', k' ≠ k → lookupStore st'.store k' = lookupStore st.store k') ∧
        List.Forall₂ zeroDefaulted flat ds := by
  intro flat
  induction flat with
  | nil =>
    intro i st k old htop hold
    exact ⟨st, [], rfl, rfl, rfl, by simpa using hold, fun _ _ => rfl,
      List.Forall₂.nil⟩
  | cons nt rest ih =>
    intro i st k old htop hold
    obtain ⟨n, dt⟩ := nt
    obtain ⟨hroot, -⟩ := assignIdDT_root (st.curID + 1) dt
    rcases hz : zeroValues dt.name with _ | gv
    · -- no zero value for this type name: Init is absent
      obtain ⟨st1, h1, hc1, hs1, hself1, hother1, hkeys1⟩ :=
        @addStmt_spec { st with curID :=
            (assignIdToDataType (st.curID + 1) (some dt)).2 } _ _
          htop hold
          (.varDecl ⟨st.curID, n,
            (assignIdToDataType (st.curID + 1) (some dt)).1, none⟩)
      obtain ⟨st', ds, h', hs', hk', hself', hother', hall⟩ :=
        ih (i + 1) st1 k _ (by rw [hs1]; exact htop) hself1
      have hstep : valueSpecLoop st none i ((n, dt) :: rest) =
          (addStmt { st with curID :=
              (assignIdToDataType (st.curID + 1) (some dt)).2 }
            (.varDecl ⟨st.curID, n,
              (assignIdToDataType (st.curID + 1) (some dt)).1, none⟩)).bind
            (fun st1 => valueSpecLoop st1 none (i + 1) rest) := by
        simp [valueSpecLoop, hz]
      refine ⟨st', .varDecl ⟨st.curID, n,
          (assignIdToDataType (st.curID + 1) (some dt)).1, none⟩ :: ds,
        ?_, by rw [hs', hs1], by rw [hk', hkeys1], by simpa using hself',
        fun k' hk'' => by rw [hother' k' hk'', hother1 k' hk''], ?_⟩
      · rw [hstep, h1]
        exact h'
      · refine List.Forall₂.cons ?_ hall
        exact ⟨_, rfl, rfl,
          ⟨(assignIdDT (st.curID + 1) dt).1, rfl, hroot⟩,
          Or.inl ⟨hz, rfl⟩⟩
    · -- the four basic type names get their zero value as Init
      obtain ⟨st1, h1, hc1, hs1, hself1, hother1, hkeys1⟩ :=
        @addStmt_spec { st with curID :=
            (assignIdToDataType (st.curID + 1) (some dt)).2 + 1 } _ _
          htop hold
          (.varDecl ⟨st.curID, n,
            (assignIdToDataType (st.curID + 1) (some dt)).1,
            some (.identifier (assignIdToDataType (st.curID + 1) (some dt)).2
              dt.name gv)⟩)
      obtain ⟨st', ds, h', hs', hk', hself', hother', hall⟩ :=
        ih (i + 1) st1 k _ (by rw [hs1]; exact htop) hself1
      have hstep : valueSpecLoop st none i ((n, dt) :: rest) =
          (addStmt { st with curID :=
              (assignIdToDataType (st.curID + 1) (some dt)).2 + 1 }
            (.varDecl ⟨st.curID, n,
              (assignIdToDataType (st.curID + 1) (some dt)).1,
              some (.identifier (assignIdToDataType (st.curID + 1) (some dt)).2
                dt.name gv)⟩)).bind
            (fun st1 => valueSpecLoop st1 none (i + 1) rest) := by
        simp [valueSpecLoop, hz]
      refine ⟨st', _ :: ds,
        ?_, by rw [hs', hs1], by rw [hk', hkeys1], by simpa using hself',
        fun k' hk'' => by rw [hother' k' hk'', hother1 k' hk''], ?_⟩
      · rw [hstep, h1]
        exact h'
      · refine List.Forall₂.cons ?_ hall
        exact ⟨_, rfl, rfl,
          ⟨(assignIdDT (st.curID + 1) dt).1, rfl, hroot⟩,
          Or.inr ⟨gv, _, hz, rfl⟩⟩

/-- C7, amended: a declaration statement emits one VarDecl per flattened
name; a declaration without initializer whose type name is in the
zero-value table (int, double, char, string) gets that zero value
substituted as its Init; in particular var x int emits VarDecl Name "x",
DataType "int", Init an identifier of kind "int" and value 0.  (The
original claim's "every VarDecl in the output has a concrete Init" fails:
a type name outside the table yields no Init, see the counterexample.) -/
theorem claim_C7 :
    (∀ (st : VState) (k : Nat) (old : List VStmt) (typ : Option GoExpr)
        (names : List String),
      st.stack.head? = some k → lookupStore st.store k = some old →
      ∃ st' ds,
        walkStmt st (.declStmt [.valueSpec typ names none]) = some st' ∧
        lookupStore st'.store k = some (old ++ ds) ∧
        ds.length = (flattenNames typ names).length ∧
        List.Forall₂ zeroDefaulted (flattenNames typ names) ds) ∧
    (∀ (st : VState) (k : Nat) (old : List VStmt),
      st.stack.head? = some k → lookupStore st.store k = some old →
      ∃ st',
        walkStmt st
          (.declStmt [.valueSpec (some (.ident "int")) ["x"] none]) =
          some st' ∧
        lookupStore st'.store k = some (old ++
          [.varDecl ⟨st.curID, "x", some (.mk (st.curID + 1) "int" none),
            some (.identifier (st.curID + 2) "int" (.int 0))⟩])) := by
  constructor
  · intro st k old typ names htop hold
    obtain ⟨st', ds, h, -, -, hself, -, hall⟩ :=
      valueSpecLoop_shape (flattenNames typ names) 0 st k old htop hold
    refine ⟨st', ds, ?_, hself, hall.length_eq.symm, hall⟩
    simp [walkStmt, declSpecLoop, h]
  · intro st k old htop hold
    obtain ⟨st1, h1, -, -, hself1, -, -⟩ :=
      @addStmt_spec { st with curID := st.curID + 3 } _ _ htop hold
        (.varDecl ⟨st.curID, "x", some (.mk (st.curID + 1) "int" none),
          some (.identifier (st.curID + 2) "int" (.int 0))⟩)
    refine ⟨st1, ?_, hself1⟩
    simp [walkStmt, declSpecLoop, valueSpecLoop, flattenNames, exprTypeOpt,
      exprType, exprString, zeroValues, DT0.name, assignIdToDataType,
      assignIdDT, h1]

/-- Witness for C7 at the initial state: var x int lands in the root
block with the zero Init. -/
theorem claim_C7_witness :
    ∃ st', walkStmt ⟨1, [(0, [])], [0]⟩
        (.declStmt [.valueSpec (some (.ident "int")) ["x"] none]) =
        some st' ∧
      lookupStore st'.store 0 = some
        [.varDecl ⟨1, "x", some (.mk 2 "int" none),
          some (.identifier 3 "int" (.int 0))⟩] :=
  claim_C7.2 ⟨1, [(0, [])], [0]⟩ 0 [] rfl rfl

/-- Counterexample to C7 as stated: var x T (a type name outside the
zero-value table) emits a VarDecl whose Init is absent, so the claim's
"every VarDecl in the output has a concrete Init" fails on the code. -/
theorem claim_C7_counterexample :
    runV (GoFile.mk "main" []
        [.funcDecl "f" [] [] (some
          [.declStmt [.valueSpec (some (.ident "T")) ["x"] none]])]) =
      some ⟨6, [(0, [.funcDecl 1 "f" (some (.mk 2 "void" none)) [] 3]),
        (3, [.varDecl ⟨4, "x", some (.mk 5 "T" none), none⟩])], [0]⟩ := rfl

/-! ## Claim C9: null-expression containment -/

/-- C9, amended: an unsupported unary operator is substituted by a leaf
ErrorNode; every other unsupported expression kind makes parseExpr return
the nil expression; an expression statement wrapping such an expression
is omitted (no IR node); but the nil result IS propagated into positions
that expect an expression: a := with an unsupported right-hand side emits
a VarDecl whose Init is absent, and a Binary node can carry absent
operands.  (The original claim's "never propagate a null expression into
a position that requires one" fails, see the counterexample.) -/
theorem claim_C9 :
    (∀ c s x, parseExpr c (.unaryExpr (.other s) x) =
        (some (.errorNode c "error" "Unsupported statement or expression"
          ("Invalid unary expression: " ++ s)), c + 1)) ∧
    (∀ c, parseExpr c .otherExpr = (none, c)) ∧
    (∀ c t, parseExpr c (.compositeLit t) = (none, c)) ∧
    (∀ c x, parseExpr c (.starExpr x) = (none, c)) ∧
    (∀ c e, parseExpr c (.arrayType e) = (none, c)) ∧
    (∀ st t, walkStmt st (.exprStmt (.compositeLit t)) = some st) ∧
    (∀ c t y,
      (parseExpr c (.binaryExpr (.other "+") (.compositeLit t)
        (.compositeLit y))).1 = some (.binary c "+" none none)) ∧
    (∀ (st : VState) (k : Nat) (old : List VStmt) (t : GoExpr),
      st.stack.head? = some k → lookupStore st.store k = some old →
      ∃ st',
        walkStmt st (.assign .define [.ident "x"] [.compositeLit t]) =
          some st' ∧
        lookupStore st'.store k = some (old ++
          [.varDecl ⟨st.curID, "x",
            some (.mk (st.curID + 1) (exprString t) none), none⟩])) := by
  refine ⟨fun c s x => rfl, fun c => rfl, fun c t => rfl, fun c x => rfl,
    fun c e => rfl, fun st t => rfl, fun c t y => rfl,
    fun st k old t htop hold => ?_⟩
  obtain ⟨st1, h1, -, -, hself1, -, -⟩ :=
    @addStmt_spec { st with curID := st.curID + 2 } _ _ htop hold
      (.varDecl ⟨st.curID, "x",
        some (.mk (st.curID + 1) (exprString t) none), none⟩)
  refine ⟨st1, ?_, hself1⟩
  simp [walkStmt, assignLoop, exprType, exprString, assignIdToDataType,
    assignIdDT, parseExpr, h1]

/-- Witness for C9: the := with a composite-literal right-hand side, from
the initial state, emits the Init-less VarDecl into the root block. -/
theorem claim_C9_witness :
    ∃ st', walkStmt ⟨1, [(0, [])], [0]⟩
        (.assign .define [.ident "x"] [.compositeLit (.ident "T")]) =
        some st' ∧
      lookupStore st'.store 0 = some
        [.varDecl ⟨1, "x", some (.mk 2 "T" none), none⟩] :=
  claim_C9.2.2.2.2.2.2.2 ⟨1, [(0, [])], [0]⟩ 0 [] (.ident "T") rfl rfl

/-- Counterexample to C9 as stated: x := T{} emits a VarDecl whose Init
position holds the propagated null expression (absent in the output), so
a null expression does reach a position that requires one. -/
theorem claim_C9_counterexample :
    runV (GoFile.mk "main" []
        [.funcDecl "f" [] [] (some
          [.assign .define [.ident "x"] [.compositeLit (.ident "T")]])]) =
      some ⟨6, [(0, [.funcDecl 1 "f" (some (.mk 2 "void" none)) [] 3]),
        (3, [.varDecl ⟨4, "x", some (.mk 5 "T" none), none⟩])], [0]⟩ := rfl

/-! ## Freshness of allocated ids -/

theorem nodup_append_of_bounds {l1 l2 : List Nat} {m : Nat}
    (h1 : l1.Nodup) (h2 : l2.Nodup)
    (b1 : ∀ i ∈ l1, i < m) (b2 : ∀ i ∈ l2, m ≤ i) :
    (l1 ++ l2).Nodup := by
  refine List.Nodup.append h1 h2 ?_
  intro a ha1 ha2
  have := b1 a ha1
  have := b2 a ha2
  omega

theorem assignIdDT_bounds (c : Nat) (d : DT0) :
    c < (assignIdDT c d).2 ∧
    (∀ i ∈ dtIds (assignIdDT c d).1, c ≤ i ∧ i < (assignIdDT c d).2) ∧
    (dtIds (assignIdDT c d).1).Nodup := by
  induction c, d using assignIdDT.induct with
  | case1 c n =>
    simp [assignIdDT, dtIds]
  | case2 c n d ih =>
    obtain ⟨ih1, ih2, ih3⟩ := ih
    refine ⟨?_, ?_, ?_⟩
    · simp only [assignIdDT]
      omega
    · simp only [assignIdDT, dtIds, List.mem_cons]
      rintro i (rfl | hi)
      · omega
      · have := ih2 i hi
        omega
    · simp only [assignIdDT, dtIds, List.nodup_cons]
      refine ⟨fun hc => ?_, ih3⟩
      have := ih2 c hc
      omega

theorem assignIdToDataType_bounds (c : Nat) (d : Option DT0) :
    c ≤ (assignIdToDataType c d).2 ∧
    (∀ i ∈ dtIdsO (assignIdToDataType c d).1,
      c ≤ i ∧ i < (assignIdToDataType c d).2) ∧
    (dtIdsO (assignIdToDataType c d).1).Nodup := by
  cases d with
  | none => simp [assignIdToDataType, dtIdsO]
  | some d =>
    obtain ⟨h1, h2, h3⟩ := assignIdDT_bounds c d
    exact ⟨by simp only [assignIdToDataType]; omega,
      by simpa [assignIdToDataType, dtIdsO] using h2,
      by simpa [assignIdToDataType, dtIdsO] using h3⟩

theorem parseExpr_bounds : ∀ (c : Nat) (g : GoExpr),
    c ≤ (parseExpr c g).2 ∧
    (∀ i ∈ exprIdsO (parseExpr c g).1, c ≤ i ∧ i < (parseExpr c g).2) ∧
    (exprIdsO (parseExpr c g).1).Nodup := by
  intro c₀ g₀
  refine parseExpr.induct
    (fun c g => c ≤ (parseExpr c g).2 ∧
      (∀ i ∈ exprIdsO (parseExpr c g).1, c ≤ i ∧ i < (parseExpr c g).2) ∧
      (exprIdsO (parseExpr c g).1).Nodup)
    (fun c gs => c ≤ (parseExprList c gs).2 ∧
      (∀ i ∈ exprIdsL (parseExprList c gs).1,
        c ≤ i ∧ i < (parseExprList c gs).2) ∧
      (exprIdsL (parseExprList c gs).1).Nodup)
    ?_ ?_ ?_ ?_ ?_ ?_ ?_ ?_ ?_ ?_ ?_ ?_ ?_ ?_ ?_ c₀ g₀
  · intro c n
    simp [parseExpr, exprIdsO, exprIds]
  · intro c k v
    simp [parseExpr, exprIdsO, exprIds]
  · intro c x s
    simp [parseExpr, exprIdsO, exprIds]
  · intro c op x hop ih
    obtain ⟨ih1, ih2, ih3⟩ := ih
    have heq : parseExpr c (.unaryExpr op x) =
        (some (.unary c (unOpTag op) (parseExpr (c + 1) x).1),
          (parseExpr (c + 1) x).2) := by
      cases op with
      | add => rfl
      | sub => rfl
      | not => rfl
      | other s => exact absurd rfl (hop s)
    rw [heq]
    simp only [exprIdsO, exprIds, List.mem_cons, List.nodup_cons]
    refine ⟨by omega, ?_, fun hc => ?_, ih3⟩
    · rintro i (rfl | hi)
      · omega
      · have := ih2 i hi
        omega
    · have := ih2 c hc
      omega
  · intro c fn args ih
    obtain ⟨ih1, ih2, ih3⟩ := ih
    simp only [parseExpr, exprIdsO, exprIds, List.mem_cons, List.nodup_cons]
    refine ⟨by omega, ?_, fun hc => ?_, ih3⟩
    · rintro i (rfl | hi)
      · omega
      · have := ih2 i hi
        omega
    · have := ih2 c hc
      omega
  · intro c op x y l ih1 ih2
    have hl : l = parseExpr (c + 1) x := rfl
    clear_value l
    subst hl
    obtain ⟨ia1, ia2, ia3⟩ := ih1
    obtain ⟨ib1, ib2, ib3⟩ := ih2
    simp only [parseExpr, exprIdsO, exprIds, List.mem_cons, List.mem_append,
      List.nodup_cons]
    refine ⟨by omega, ?_, fun hc => ?_, ?_⟩
    · rintro i (rfl | hi | hi)
      · omega
      · have := ia2 i hi; omega
      · have := ib2 i hi; omega
    · rcases hc with hc | hc
      · have := ia2 c hc; omega
      · have := ib2 c hc; omega
    · exact nodup_append_of_bounds ia3 ib3
        (fun i hi => (ia2 i hi).2) (fun i hi => (ib2 i hi).1)
  · intro c x i l ih1 ih2
    have hl : l = parseExpr (c + 1) x := rfl
    clear_value l
    subst hl
    obtain ⟨ia1, ia2, ia3⟩ := ih1
    obtain ⟨ib1, ib2, ib3⟩ := ih2
    simp only [parseExpr, exprIdsO, exprIds, List.mem_cons, List.mem_append,
      List.nodup_cons]
    refine ⟨by omega, ?_, fun hc => ?_, ?_⟩
    · rintro j (rfl | hj | hj)
      · omega
      · have := ia2 j hj; omega
      · have := ib2 j hj; omega
    · rcases hc with hc | hc
      · have := ia2 c hc; omega
      · have := ib2 c hc; omega
    · exact nodup_append_of_bounds ia3 ib3
        (fun j hj => (ia2 j hj).2) (fun j hj => (ib2 j hj).1)
  · intro c x sel ih
    obtain ⟨ih1, ih2, ih3⟩ := ih
    simp only [parseExpr, exprIdsO, exprIds, List.mem_cons, List.mem_append,
      List.mem_singleton, List.not_mem_nil, or_false, List.nodup_cons]
    refine ⟨by omega, ?_, fun hc => ?_, ?_⟩
    · rintro i (rfl | hi | rfl)
      · omega
      · have := ih2 i hi; omega
      · omega
    · rcases hc with hc | hc
      · have := ih2 c hc; omega
      · omega
    · refine nodup_append_of_bounds ih3 (by simp)
        (fun i hi => (ih2 i hi).2) ?_
      simp
  · intro c x ih
    simpa [parseExpr] using ih
  · intro c x
    simp [parseExpr, exprIdsO]
  · intro c elt
    simp [parseExpr, exprIdsO]
  · intro c typ
    simp [parseExpr, exprIdsO]
  · intro c
    simp [parseExpr, exprIdsO]
  · intro c
    exact ⟨le_refl c, by simp [parseExprList, exprIdsL],
      by simp [parseExprList, exprIdsL]⟩
  · intro c e rest p ih1 ih2
    have hp : p = parseExpr c e := rfl
    clear_value p
    subst hp
    obtain ⟨ia1, ia2, ia3⟩ := ih1
    obtain ⟨ib1, ib2, ib3⟩ := ih2
    simp only [parseExprList, exprIdsL, List.mem_append]
    refine ⟨by omega, ?_, ?_⟩
    · rintro i (hi | hi)
      · have := ia2 i hi; omega
      · have := ib2 i hi; omega
    · exact nodup_append_of_bounds ia3 ib3
        (fun i hi => (ia2 i hi).2) (fun i hi => (ib2 i hi).1)

/-! ## Invariant preservation building blocks -/

theorem nodup_insert_of_bounds {pre post new : List Nat} {m : Nat}
    (h : (pre ++ post).Nodup) (hnew : new.Nodup)
    (hb : ∀ i ∈ pre ++ post, i < m) (hb2 : ∀ i ∈ new, m ≤ i) :
    (pre ++ (new ++ post)).Nodup := by
  have h1 : List.Perm (new ++ post) (post ++ new) := List.perm_append_comm
  have h2 := List.Perm.append_left pre h1
  have h3 : pre ++ (post ++ new) = (pre ++ post) ++ new :=
    (List.append_assoc pre post new).symm
  have hperm : List.Perm (pre ++ (new ++ post)) ((pre ++ post) ++ new) :=
    h3 ▸ h2
  exact (List.Perm.nodup_iff hperm).mpr
    (nodup_append_of_bounds h hnew hb hb2)

theorem storeIds_cons (k : Nat) (l : List VStmt)
    (tl : List (Nat × List VStmt)) :
    storeIds ((k, l) :: tl) = (k :: l.flatMap stmtIds) ++ storeIds tl := by
  simp [storeIds]

theorem appendStore_storeIds {store σ : List (Nat × List VStmt)} {k : Nat}
    {s : VStmt} (h : appendStore store k s = some σ) :
    ∃ pre post, storeIds store = pre ++ post ∧
      storeIds σ = pre ++ (stmtIds s ++ post) := by
  induction store generalizing σ with
  | nil => simp [appendStore] at h
  | cons hd tl ih =>
    obtain ⟨k', l⟩ := hd
    by_cases hk : k' = k
    · rw [appendStore, if_pos hk] at h
      cases h
      refine ⟨k' :: l.flatMap stmtIds, storeIds tl, storeIds_cons .., ?_⟩
      rw [storeIds_cons, List.flatMap_append]
      simp [List.append_assoc]
    · rw [appendStore, if_neg hk] at h
      rcases hσ : appendStore tl k s with _ | σ' <;> rw [hσ] at h
      · cases h
      · simp only [Option.map_some', Option.some.injEq] at h
        subst h
        obtain ⟨pre, post, h1, h2⟩ := ih hσ
        refine ⟨(k' :: l.flatMap stmtIds) ++ pre, post, ?_, ?_⟩
        · rw [storeIds_cons, h1, List.append_assoc]
        · rw [storeIds_cons, h2, List.append_assoc]

theorem storeKeys_subset_storeIds (store : List (Nat × List VStmt)) :
    ∀ k ∈ storeKeys store, k ∈ storeIds store := by
  induction store with
  | nil => simp [storeKeys, storeIds]
  | cons hd tl ih =>
    obtain ⟨k', l⟩ := hd
    intro k hk
    simp only [storeKeys, List.map_cons, List.mem_cons] at hk
    rcases hk with rfl | hk
    · simp [storeIds]
    · simp only [storeIds, List.flatMap_cons, List.mem_append,
        List.mem_cons]
      right
      simpa [storeIds] using ih k hk

theorem inv_emit {st : VState} {c' : Nat} {s : VStmt} {st' : VState}
    (h : addStmt { st with curID := c' } s = some st')
    (hinv : VInv st) (hle : st.curID ≤ c')
    (hb : ∀ i ∈ stmtIds s, st.curID ≤ i ∧ i < c')
    (hn : (stmtIds s).Nodup) :
    VInv st' ∧ st.curID ≤ st'.curID ∧ st'.curID = c' ∧
      st'.stack = st.stack ∧ storeKeys st'.store = storeKeys st.store ∧
      (∀ i ∈ allIds st', i ∈ allIds st ∨ i ∈ stmtIds s) := by
  rcases hstk : st.stack with _ | ⟨k, rest⟩ <;>
    simp only [addStmt, hstk] at h
  · cases h
  · rcases hσ : appendStore st.store k s with _ | σ <;> rw [hσ] at h
    · cases h
    · simp only [Option.map_some', Option.some.injEq] at h
      subst h
      obtain ⟨pre, post, hsp, hsp'⟩ := appendStore_storeIds hσ
      have hold : allIds st = pre ++ post := hsp
      have hkeys := appendStore_keys hσ
      refine ⟨⟨?_, ?_, ?_, ?_⟩, by simpa using hle, rfl, by simp [hstk], ?_,
        ?_⟩
      · simpa [hkeys] using hinv.keys_nodup
      · show (storeIds σ).Nodup
        rw [hsp']
        exact nodup_insert_of_bounds (hold ▸ hinv.ids_nodup) hn
          (fun i hi => hinv.ids_lt i (hold ▸ hi)) (fun i hi => (hb i hi).1)
      · show ∀ i ∈ storeIds σ, i < c'
        rw [hsp']
        intro i hi
        rcases List.mem_append.mp hi with hi | hi
        · have := hinv.ids_lt i (hold ▸ List.mem_append.mpr (Or.inl hi))
          omega
        · rcases List.mem_append.mp hi with hi | hi
          · exact (hb i hi).2
          · have := hinv.ids_lt i (hold ▸ List.mem_append.mpr (Or.inr hi))
            omega
      · show ∀ k' ∈ k :: rest, k' ∈ storeKeys σ
        rw [hkeys]
        intro k' hk'
        exact hinv.stack_sub k' (hstk ▸ hk')
      · exact hkeys
      · show ∀ i ∈ storeIds σ, i ∈ allIds st ∨ i ∈ stmtIds s
        rw [hsp', hold]
        intro i hi
        rcases List.mem_append.mp hi with hi | hi
        · exact Or.inl (List.mem_append.mpr (Or.inl hi))
        · rcases List.mem_append.mp hi with hi | hi
          · exact Or.inr hi
          · exact Or.inl (List.mem_append.mpr (Or.inr hi))

theorem allIds_pushBlock (st : VState) (k : Nat) :
    allIds (pushBlock st k) = allIds st ++ [k] := by
  simp [pushBlock, allIds, storeIds]

theorem inv_push {st : VState} {k : Nat} (hinv : VInv st)
    (hfresh : ∀ i ∈ allIds st, i ≠ k) (hlt : k < st.curID) :
    VInv (pushBlock st k) := by
  have hknotin : k ∉ storeKeys st.store := fun hmem =>
    hfresh k (storeKeys_subset_storeIds _ k hmem) rfl
  refine ⟨?_, ?_, ?_, ?_⟩
  · show (storeKeys (st.store ++ [(k, [])])).Nodup
    have : storeKeys (st.store ++ [(k, [])]) = storeKeys st.store ++ [k] := by
      simp [storeKeys]
    rw [this]
    simp only [List.nodup_append, List.nodup_cons, List.not_mem_nil,
      not_false_iff, List.nodup_nil, and_true, true_and]
    constructor
    · exact hinv.keys_nodup
    · intro a ha
      simp only [List.mem_singleton]
      intro rfl'
      exact hknotin (rfl' ▸ ha)
  · show (storeIds (st.store ++ [(k, [])])).Nodup
    have : storeIds (st.store ++ [(k, [])]) = storeIds st.store ++ [k] := by
      simp [storeIds]
    rw [this]
    simp only [List.nodup_append, List.nodup_cons, List.not_mem_nil,
      not_false_iff, List.nodup_nil, and_true, true_and]
    exact ⟨hinv.ids_nodup, fun a ha => by
      simp only [List.mem_singleton]
      intro h
      exact hfresh a ha h⟩
  · show ∀ i ∈ storeIds (st.store ++ [(k, [])]), i < st.curID
    have : storeIds (st.store ++ [(k, [])]) = storeIds st.store ++ [k] := by
      simp [storeIds]
    rw [this]
    intro i hi
    rcases List.mem_append.mp hi with hi | hi
    · exact hinv.ids_lt i hi
    · simp only [List.mem_singleton] at hi
      omega
  · show ∀ k' ∈ k :: st.stack, k' ∈ storeKeys (st.store ++ [(k, [])])
    have : storeKeys (st.store ++ [(k, [])]) = storeKeys st.store ++ [k] := by
      simp [storeKeys]
    rw [this]
    intro k' hk'
    rcases List.mem_cons.mp hk' with rfl | hk'
    · simp
    · exact List.mem_append.mpr (Or.inl (hinv.stack_sub k' hk'))

theorem inv_pop {st st' : VState} (h : popBlock st = some st')
    (hinv : VInv st) :
    VInv st' ∧ st'.curID = st.curID ∧ st'.store = st.store := by
  rcases hstk : st.stack with _ | ⟨k, rest⟩ <;>
    simp only [popBlock, hstk] at h
  · cases h
  · cases h
    refine ⟨⟨hinv.keys_nodup, hinv.ids_nodup, hinv.ids_lt, ?_⟩, rfl, rfl⟩
    intro k' hk'
    refine hinv.stack_sub k' ?_
    rw [hstk]
    exact List.mem_cons_of_mem k hk'

theorem varDeclLoop_bounds :
    ∀ (flat : List (String × DT0)) (c : Nat),
      c ≤ (varDeclLoop c flat).2 ∧
      (∀ i ∈ (varDeclLoop c flat).1.flatMap varDeclIds,
        c ≤ i ∧ i < (varDeclLoop c flat).2) ∧
      ((varDeclLoop c flat).1.flatMap varDeclIds).Nodup ∧
      (varDeclLoop c flat).1.length = flat.length := by
  intro flat
  induction flat with
  | nil => intro c; simp [varDeclLoop]
  | cons nt rest ih =>
    intro c
    obtain ⟨n, dt⟩ := nt
    obtain ⟨ih1, ih2, ih3, ih4⟩ := ih ((assignIdToDataType (c + 1) (some dt)).2)
    obtain ⟨ha1, ha2, ha3⟩ := assignIdToDataType_bounds (c + 1) (some dt)
    simp only [varDeclLoop, List.flatMap_cons, varDeclIds, exprIdsO,
      List.append_nil, List.length_cons]
    refine ⟨by omega, ?_, ?_, by simpa using ih4⟩
    · intro i hi
      rcases List.mem_append.mp hi with hi | hi
      · rcases List.mem_cons.mp hi with rfl | hi
        · omega
        · have := ha2 i hi
          omega
      · have := ih2 i hi
        omega
    · refine nodup_append_of_bounds (List.nodup_cons.mpr ⟨?_, ha3⟩) ih3
        ?_ (fun i hi => (ih2 i hi).1)
      · intro hc
        have := ha2 c hc
        omega
      · intro i hi
        rcases List.mem_cons.mp hi with rfl | hi
        · omega
        · exact (ha2 i hi).2

theorem walkExprNode_inv (st : VState) (x : GoExpr) :
    ∀ st', walkExprNode st x = some st' → VInv st →
      VInv st' ∧ st.curID ≤ st'.curID ∧ st'.stack = st.stack ∧
      storeKeys st'.store = storeKeys st.store := by
  intro st' h hinv
  have emitCase : ∀ (y : GoExpr),
      (match parseExpr st.curID y with
        | (some e, c') => addStmt { st with curID := c' } (.exprS e)
        | (none, c') => addStmt { st with curID := c' } VStmt.nilS) =
        some st' →
      VInv st' ∧ st.curID ≤ st'.curID ∧ st'.stack = st.stack ∧
      storeKeys st'.store = storeKeys st.store := by
    intro y hy
    obtain ⟨hb1, hb2, hb3⟩ := parseExpr_bounds st.curID y
    rcases hp : parseExpr st.curID y with ⟨oe, c'⟩
    rw [hp] at hy hb1 hb2 hb3
    cases oe with
    | some e =>
      obtain ⟨hi, hm, -, hs, hk, -⟩ := inv_emit hy hinv hb1
        (by simpa [stmtIds, exprIdsO] using hb2)
        (by simpa [stmtIds, exprIdsO] using hb3)
      exact ⟨hi, hm, hs, hk⟩
    | none =>
      obtain ⟨hi, hm, -, hs, hk, -⟩ := inv_emit hy hinv hb1
        (by simp [stmtIds]) (by simp [stmtIds])
      exact ⟨hi, hm, hs, hk⟩
  cases x with
  | basicLit k v =>
    refine emitCase (.basicLit k v) ?_
    simpa only [walkExprNode] using h
  | unaryExpr op y =>
    refine emitCase (.unaryExpr op y) ?_
    simpa only [walkExprNode] using h
  | callExpr fn args =>
    refine emitCase (.callExpr fn args) ?_
    simpa only [walkExprNode] using h
  | ident n => cases h; exact ⟨hinv, le_refl _, rfl, rfl⟩
  | binaryExpr op y z => cases h; exact ⟨hinv, le_refl _, rfl, rfl⟩
  | indexExpr y i => cases h; exact ⟨hinv, le_refl _, rfl, rfl⟩
  | selectorExpr y sel => cases h; exact ⟨hinv, le_refl _, rfl, rfl⟩
  | parenExpr y => cases h; exact ⟨hinv, le_refl _, rfl, rfl⟩
  | starExpr y => cases h; exact ⟨hinv, le_refl _, rfl, rfl⟩
  | arrayType y => cases h; exact ⟨hinv, le_refl _, rfl, rfl⟩
  | compositeLit y => cases h; exact ⟨hinv, le_refl _, rfl, rfl⟩
  | otherExpr => cases h; exact ⟨hinv, le_refl _, rfl, rfl⟩

theorem varDecl_ids_noinit (c : Nat) (n : String) (dt : DT0) :
    (∀ i ∈ varDeclIds ⟨c, n, (assignIdToDataType (c + 1) (some dt)).1, none⟩,
      c ≤ i ∧ i < (assignIdToDataType (c + 1) (some dt)).2) ∧
    (varDeclIds ⟨c, n, (assignIdToDataType (c + 1) (some dt)).1, none⟩).Nodup := by
  obtain ⟨ha1, ha2, ha3⟩ := assignIdToDataType_bounds (c + 1) (some dt)
  simp only [varDeclIds, exprIdsO, List.append_nil, List.mem_cons,
    List.nodup_cons]
  refine ⟨?_, fun hc => ?_, ha3⟩
  · rintro i (rfl | hi)
    · omega
    · have := ha2 i hi
      omega
  · have := ha2 c hc
    omega

theorem varDecl_ids_init (c : Nat) (n : String) (dt : DT0) (typ : String)
    (gv : GoVal) :
    (∀ i ∈ varDeclIds ⟨c, n, (assignIdToDataType (c + 1) (some dt)).1,
        some (.identifier (assignIdToDataType (c + 1) (some dt)).2 typ gv)⟩,
      c ≤ i ∧ i < (assignIdToDataType (c + 1) (some dt)).2 + 1) ∧
    (varDeclIds ⟨c, n, (assignIdToDataType (c + 1) (some dt)).1,
        some (.identifier (assignIdToDataType (c + 1) (some dt)).2 typ gv)⟩).Nodup := by
  obtain ⟨ha1, ha2, ha3⟩ := assignIdToDataType_bounds (c + 1) (some dt)
  simp only [varDeclIds, exprIdsO, exprIds, List.mem_cons, List.mem_append,
    List.mem_singleton, List.not_mem_nil, or_false, List.nodup_cons]
  refine ⟨?_, fun hc => ?_, ?_⟩
  · rintro i (rfl | hi | rfl)
    · omega
    · have := ha2 i hi
      omega
    · omega
  · rcases hc with hc | hc
    · have := ha2 c hc
      omega
    · omega
  · refine nodup_append_of_bounds ha3 (by simp)
      (fun i hi => (ha2 i hi).2) ?_
    simp

theorem valueSpecLoop_inv (values : Option (List GoExpr)) :
    ∀ (flat : List (String × DT0)) (i : Nat) (st st' : VState),
      valueSpecLoop st values i flat = some st' → VInv st →
      VInv st' ∧ st.curID ≤ st'.curID ∧ st'.stack = st.stack ∧
      storeKeys st'.store = storeKeys st.store := by
  intro flat
  induction flat with
  | nil =>
    intro i st st' h hinv
    cases h
    exact ⟨hinv, le_refl _, rfl, rfl⟩
  | cons nt rest ih =>
    intro i st st' h hinv
    obtain ⟨n, dt⟩ := nt
    have step : ∀ (v : Option GoVal),
        ((match v with
          | none =>
            addStmt { st with curID := (assignIdToDataType (st.curID + 1)
              (some dt)).2 }
              (.varDecl ⟨st.curID, n,
                (assignIdToDataType (st.curID + 1) (some dt)).1, none⟩)
          | some gv =>
            addStmt { st with curID := (assignIdToDataType (st.curID + 1)
              (some dt)).2 + 1 }
              (.varDecl ⟨st.curID, n,
                (assignIdToDataType (st.curID + 1) (some dt)).1,
                some (.identifier (assignIdToDataType (st.curID + 1)
                  (some dt)).2 dt.name gv)⟩)).bind
          (fun st1 => valueSpecLoop st1 values (i + 1) rest)) = some st' →
        VInv st' ∧ st.curID ≤ st'.curID ∧ st'.stack = st.stack ∧
        storeKeys st'.store = storeKeys st.store := by
      intro v hv
      obtain ⟨ha1, -, -⟩ := assignIdToDataType_bounds (st.curID + 1) (some dt)
      cases v with
      | none =>
        dsimp only at hv
        rcases h1 : addStmt { st with curID :=
            (assignIdToDataType (st.curID + 1) (some dt)).2 }
            (.varDecl ⟨st.curID, n,
              (assignIdToDataType (st.curID + 1) (some dt)).1, none⟩)
          with _ | st1 <;> rw [h1] at hv
        · cases hv
        · obtain ⟨hb, hn⟩ := varDecl_ids_noinit st.curID n dt
          obtain ⟨hi1, hm1, -, hs1, hk1, -⟩ := inv_emit h1 hinv (by omega) hb hn
          obtain ⟨hi2, hm2, hs2, hk2⟩ := ih (i + 1) st1 st' (by simpa using hv) hi1
          exact ⟨hi2, by omega, by rw [hs2, hs1], by rw [hk2, hk1]⟩
      | some gv =>
        dsimp only at hv
        rcases h1 : addStmt { st with curID :=
            (assignIdToDataType (st.curID + 1) (some dt)).2 + 1 }
            (.varDecl ⟨st.curID, n,
              (assignIdToDataType (st.curID + 1) (some dt)).1,
              some (.identifier (assignIdToDataType (st.curID + 1)
                (some dt)).2 dt.name gv)⟩)
          with _ | st1 <;> rw [h1] at hv
        · cases hv
        · obtain ⟨hb, hn⟩ := varDecl_ids_init st.curID n dt dt.name gv
          obtain ⟨hi1, hm1, -, hs1, hk1, -⟩ := inv_emit h1 hinv (by omega) hb hn
          obtain ⟨hi2, hm2, hs2, hk2⟩ := ih (i + 1) st1 st' (by simpa using hv) hi1
          exact ⟨hi2, by omega, by rw [hs2, hs1], by rw [hk2, hk1]⟩
    cases values with
    | none =>
      refine step (zeroValues dt.name) ?_
      have : valueSpecLoop st none i ((n, dt) :: rest) = _ := rfl
      revert h
      cases hz : zeroValues dt.name <;>
        simp [valueSpecLoop, hz]
    | some vs =>
      rcases hv : vs[i]? with _ | e
      · rw [valueSpecLoop] at h
        simp [hv] at h
      · refine step (exprValue e) ?_
        revert h
        cases he : exprValue e <;>
          simp [valueSpecLoop, hv, he]

theorem declSpecLoop_inv :
    ∀ (specs : List GoSpec) (st st' : VState),
      declSpecLoop st specs = some st' → VInv st →
      VInv st' ∧ st.curID ≤ st'.curID ∧ st'.stack = st.stack ∧
      storeKeys st'.store = storeKeys st.store := by
  intro specs
  induction specs with
  | nil =>
    intro st st' h hinv
    cases h
    exact ⟨hinv, le_refl _, rfl, rfl⟩
  | cons sp rest ih =>
    intro st st' h hinv
    cases sp with
    | valueSpec typ names values =>
      rw [declSpecLoop] at h
      rcases h1 : valueSpecLoop st values 0 (flattenNames typ names)
        with _ | st1 <;> rw [h1] at h
      · cases h
      · obtain ⟨hi1, hm1, hs1, hk1⟩ :=
          valueSpecLoop_inv values (flattenNames typ names) 0 st st1 h1 hinv
        obtain ⟨hi2, hm2, hs2, hk2⟩ := ih st1 st' (by simpa using h) hi1
        exact ⟨hi2, by omega, by rw [hs2, hs1], by rw [hk2, hk1]⟩
    | typeSpecStruct name fields => exact ih st st' (by simpa [declSpecLoop] using h) hinv
    | typeSpecOther name => exact ih st st' (by simpa [declSpecLoop] using h) hinv
    | importSpec p => exact ih st st' (by simpa [declSpecLoop] using h) hinv
    | otherSpec => exact ih st st' (by simpa [declSpecLoop] using h) hinv

theorem assignLoop_inv (tok : AssignTok) (rhs : List GoExpr) :
    ∀ (lhs : List GoExpr) (i : Nat) (st st' : VState),
      assignLoop st tok rhs i lhs = some st' → VInv st →
      VInv st' ∧ st.curID ≤ st'.curID ∧ st'.stack = st.stack ∧
      storeKeys st'.store = storeKeys st.store := by
  intro lhs
  induction lhs with
  | nil =>
    intro i st st' h hinv
    cases h
    exact ⟨hinv, le_refl _, rfl, rfl⟩
  | cons l ls ih =>
    intro i st st' h hinv
    rw [assignLoop] at h
    obtain ⟨r, hr, h⟩ := Option.bind_eq_some.mp h
    cases tok with
    | define =>
      dsimp only at h
      obtain ⟨st1, h1, h2⟩ := Option.bind_eq_some.mp h
      obtain ⟨ha1, ha2, ha3⟩ :=
        assignIdToDataType_bounds (st.curID + 1) (some (exprType r))
      obtain ⟨hp1, hp2, hp3⟩ :=
        parseExpr_bounds (assignIdToDataType (st.curID + 1)
          (some (exprType r))).2 r
      have hb : ∀ j ∈ varDeclIds ⟨st.curID, exprString l,
          (assignIdToDataType (st.curID + 1) (some (exprType r))).1,
          (parseExpr (assignIdToDataType (st.curID + 1)
            (some (exprType r))).2 r).1⟩,
          st.curID ≤ j ∧ j < (parseExpr (assignIdToDataType
            (st.curID + 1) (some (exprType r))).2 r).2 := by
        simp only [varDeclIds, List.mem_cons, List.mem_append]
        rintro j (rfl | hj | hj)
        · omega
        · have := ha2 j hj; omega
        · have := hp2 j hj; omega
      have hn : (varDeclIds ⟨st.curID, exprString l,
          (assignIdToDataType (st.curID + 1) (some (exprType r))).1,
          (parseExpr (assignIdToDataType (st.curID + 1)
            (some (exprType r))).2 r).1⟩).Nodup := by
        simp only [varDeclIds, List.nodup_cons, List.mem_cons,
          List.mem_append]
        refine ⟨?_, nodup_append_of_bounds ha3 hp3
          (fun j hj => (ha2 j hj).2) (fun j hj => (hp2 j hj).1)⟩
        rintro (hj | hj)
        · have := ha2 _ hj; omega
        · have := hp2 _ hj; omega
      obtain ⟨hi1, hm1, -, hs1, hk1, -⟩ := inv_emit h1 hinv (by omega) hb hn
      obtain ⟨hi2, hm2, hs2, hk2⟩ := ih (i + 1) st1 st' h2 hi1
      exact ⟨hi2, by omega, by rw [hs2, hs1], by rw [hk2, hk1]⟩
    | other s =>
      dsimp only at h
      obtain ⟨st1, h1, h2⟩ := Option.bind_eq_some.mp h
      obtain ⟨hp1, hp2, hp3⟩ := parseExpr_bounds (st.curID + 1) l
      obtain ⟨hq1, hq2, hq3⟩ :=
        parseExpr_bounds (parseExpr (st.curID + 1) l).2 r
      have hb : ∀ j ∈ stmtIds (.exprS (.binary st.curID s
          (parseExpr (st.curID + 1) l).1
          (parseExpr (parseExpr (st.curID + 1) l).2 r).1)),
          st.curID ≤ j ∧ j <
            (parseExpr (parseExpr (st.curID + 1) l).2 r).2 := by
        simp only [stmtIds, exprIds, List.mem_cons, List.mem_append]
        rintro j (rfl | hj | hj)
        · omega
        · have := hp2 j hj; omega
        · have := hq2 j hj; omega
      have hn : (stmtIds (.exprS (.binary st.curID s
          (parseExpr (st.curID + 1) l).1
          (parseExpr (parseExpr (st.curID + 1) l).2 r).1))).Nodup := by
        simp only [stmtIds, exprIds, List.nodup_cons, List.mem_cons,
          List.mem_append]
        refine ⟨?_, nodup_append_of_bounds hp3 hq3
          (fun j hj => (hp2 j hj).2) (fun j hj => (hq2 j hj).1)⟩
        rintro (hj | hj)
        · have := hp2 _ hj; omega
        · have := hq2 _ hj; omega
      obtain ⟨hi1, hm1, -, hs1, hk1, -⟩ := inv_emit h1 hinv (by omega) hb hn
      obtain ⟨hi2, hm2, hs2, hk2⟩ := ih (i + 1) st1 st' h2 hi1
      exact ⟨hi2, by omega, by rw [hs2, hs1], by rw [hk2, hk1]⟩

theorem walkSpec_inv (sp : GoSpec) (st st' : VState)
    (h : walkSpec st sp = some st') (hinv : VInv st) :
    VInv st' ∧ st.curID ≤ st'.curID ∧ st'.stack = st.stack ∧
    storeKeys st'.store = storeKeys st.store := by
  cases sp with
  | typeSpecStruct name fields =>
    rw [walkSpec] at h
    obtain ⟨hv1, hv2, hv3, -⟩ :=
      varDeclLoop_bounds (flattenFieldList fields) (st.curID + 1)
    have hb : ∀ j ∈ stmtIds (.structDecl st.curID name
        (varDeclLoop (st.curID + 1) (flattenFieldList fields)).1),
        st.curID ≤ j ∧ j <
          (varDeclLoop (st.curID + 1) (flattenFieldList fields)).2 := by
      simp only [stmtIds, List.mem_cons]
      rintro j (rfl | hj)
      · omega
      · have := hv2 j hj; omega
    have hn : (stmtIds (.structDecl st.curID name
        (varDeclLoop (st.curID + 1) (flattenFieldList fields)).1)).Nodup := by
      simp only [stmtIds, List.nodup_cons]
      refine ⟨fun hc => ?_, hv3⟩
      have := hv2 _ hc; omega
    obtain ⟨hi1, hm1, -, hs1, hk1, -⟩ := inv_emit h hinv (by omega) hb hn
    exact ⟨hi1, hm1, hs1, hk1⟩
  | valueSpec typ names values => cases h; exact ⟨hinv, le_refl _, rfl, rfl⟩
  | typeSpecOther name => cases h; exact ⟨hinv, le_refl _, rfl, rfl⟩
  | importSpec p => cases h; exact ⟨hinv, le_refl _, rfl, rfl⟩
  | otherSpec => cases h; exact ⟨hinv, le_refl _, rfl, rfl⟩

theorem walkSpecs_inv :
    ∀ (specs : List GoSpec) (st st' : VState),
      walkSpecs st specs = some st' → VInv st →
      VInv st' ∧ st.curID ≤ st'.curID ∧ st'.stack = st.stack ∧
      storeKeys st'.store = storeKeys st.store := by
  intro specs
  induction specs with
  | nil =>
    intro st st' h hinv
    cases h
    exact ⟨hinv, le_refl _, rfl, rfl⟩
  | cons sp rest ih =>
    intro st st' h hinv
    rw [walkSpecs] at h
    rcases h1 : walkSpec st sp with _ | st1 <;> rw [h1] at h
    · cases h
    · obtain ⟨hi1, hm1, hs1, hk1⟩ := walkSpec_inv sp st st1 h1 hinv
      obtain ⟨hi2, hm2, hs2, hk2⟩ := ih st1 st' (by simpa using h) hi1
      exact ⟨hi2, by omega, by rw [hs2, hs1], by rw [hk2, hk1]⟩

theorem addInvalid_inv {st st' : VState} {desc : String}
    (h : addInvalid st desc = some st') (hinv : VInv st) :
    VInv st' ∧ st.curID ≤ st'.curID := by
  obtain ⟨hi, hm, -, -, -, -⟩ := inv_emit h hinv (by omega)
    (by simp only [stmtIds, exprIds, List.mem_singleton]
        rintro i rfl
        omega)
    (by simp [stmtIds, exprIds])
  exact ⟨hi, hm⟩

theorem walkStmt_inv : ∀ (st : VState) (s : GoStmt) (st' : VState),
    walkStmt st s = some st' → VInv st → VInv st' ∧ st.curID ≤ st'.curID := by
  intro st₀ s₀
  refine walkStmt.induct
    (fun st s => ∀ st', walkStmt st s = some st' → VInv st →
      VInv st' ∧ st.curID ≤ st'.curID)
    (fun st l => ∀ st', walkStmts st l = some st' → VInv st →
      VInv st' ∧ st.curID ≤ st'.curID)
    ?_ ?_ ?_ ?_ ?_ ?_ ?_ ?_ ?_ ?_ ?_ ?_ ?_ ?_ ?_ ?_ ?_ ?_ ?_ st₀ s₀
  · -- expression statement
    intro st x st' h hinv
    obtain ⟨a, b, -, -⟩ := walkExprNode_inv st x st'
      (by simpa only [walkStmt] using h) hinv
    exact ⟨a, b⟩
  · -- declaration statement
    intro st specs st' h hinv
    obtain ⟨a, b, -, -⟩ := declSpecLoop_inv specs st st'
      (by simpa only [walkStmt] using h) hinv
    exact ⟨a, b⟩
  · -- assignment statement
    intro st tok lhs rhs st' h hinv
    obtain ⟨a, b, -, -⟩ := assignLoop_inv tok rhs lhs 0 st st'
      (by simpa only [walkStmt] using h) hinv
    exact ⟨a, b⟩
  · -- return with no results
    intro st st' h hinv
    simp only [walkStmt] at h
    obtain ⟨hi, hm, -, -, -, -⟩ := inv_emit h hinv (by omega)
      (by simp only [stmtIds, exprIdsO, List.mem_singleton,
            List.append_nil, List.mem_cons, List.not_mem_nil, or_false]
          rintro i rfl
          omega)
      (by simp [stmtIds, exprIdsO])
    exact ⟨hi, hm⟩
  · -- return with a result expression
    intro st e rest st' h hinv
    simp only [walkStmt] at h
    obtain ⟨hp1, hp2, hp3⟩ := parseExpr_bounds (st.curID + 1) e
    obtain ⟨hi, hm, -, -, -, -⟩ := inv_emit h hinv (by omega)
      (by simp only [stmtIds, List.mem_cons]
          rintro i (rfl | hi)
          · omega
          · have := hp2 i hi
            omega)
      (by simp only [stmtIds, List.nodup_cons]
          refine ⟨fun hc => ?_, hp3⟩
          have := hp2 _ hc
          omega)
    exact ⟨hi, hm⟩
  · -- increment/decrement
    intro st inc x st' h hinv
    simp only [walkStmt] at h
    obtain ⟨hp1, hp2, hp3⟩ := parseExpr_bounds (st.curID + 1) x
    obtain ⟨hi, hm, -, -, -, -⟩ := inv_emit h hinv (by omega)
      (by simp only [stmtIds, exprIds, List.mem_cons]
          rintro i (rfl | hi)
          · omega
          · have := hp2 i hi
            omega)
      (by simp only [stmtIds, exprIds, List.nodup_cons]
          refine ⟨fun hc => ?_, hp3⟩
          have := hp2 _ hc
          omega)
    exact ⟨hi, hm⟩
  · -- if statement without else branch
    intro st init cond body ih1 ih2 ih3 st' h hinv
    simp only [walkStmt] at h
    obtain ⟨st1, h1, hb1⟩ := Option.bind_eq_some.mp h
    obtain ⟨st2, h2, hb2⟩ := Option.bind_eq_some.mp hb1
    cases h2
    obtain ⟨st3, h3, hb3⟩ := Option.bind_eq_some.mp hb2
    obtain ⟨st4, h4, hb4⟩ := Option.bind_eq_some.mp hb3
    obtain ⟨st5, h5, hb5⟩ := Option.bind_eq_some.mp hb4
    obtain ⟨st6, h6, h7⟩ := Option.bind_eq_some.mp hb5
    obtain ⟨hp1, hp2, hp3⟩ := parseExpr_bounds (st.curID + 1) cond
    obtain ⟨hiA, hmA, hcA, -, -, hprovA⟩ := inv_emit h1 hinv (by omega)
      (by simp only [stmtIds, List.mem_cons]
          rintro i (rfl | hi)
          · omega
          · have := hp2 i hi
            omega)
      (by simp only [stmtIds, List.nodup_cons]
          refine ⟨fun hc => ?_, hp3⟩
          have := hp2 _ hc
          omega)
    have hfresh : ∀ i ∈ allIds st1, i ≠ (parseExpr (st.curID + 1) cond).2 := by
      intro i hi
      rcases hprovA i hi with hi | hi
      · have := hinv.ids_lt i hi
        omega
      · simp only [stmtIds, List.mem_cons] at hi
        rcases hi with rfl | hi
        · omega
        · have := hp2 i hi
          omega
    have hiPush := inv_push hiA hfresh (by omega)
    obtain ⟨hi3, hm3⟩ := ih1 _ st3 h3 hiPush
    obtain ⟨hi4, hm4, -, -⟩ := walkExprNode_inv st3 cond st4 h4 hi3
    obtain ⟨hi5, hm5⟩ := ih2 _ st5 h5 hi4
    obtain ⟨hi6, hc6, -⟩ := inv_pop h6 hi5
    obtain ⟨hi7, hm7⟩ := ih3 _ st' h7 hi6
    refine ⟨hi7, ?_⟩
    simp only [pushBlock] at hm3
    omega
  · -- if statement with an else branch
    intro st init cond body els hne ih1 ih2 ih3 st' h hinv
    simp only [walkStmt] at h
    rcases hels : els with _ | ⟨e1, erest⟩
    · exact absurd hels hne
    rw [hels] at h
    obtain ⟨st1, h1, hb1⟩ := Option.bind_eq_some.mp h
    obtain ⟨st2, h2, hb2⟩ := Option.bind_eq_some.mp hb1
    cases h2
    obtain ⟨st3, h3, hb3⟩ := Option.bind_eq_some.mp hb2
    obtain ⟨st4, h4, hb4⟩ := Option.bind_eq_some.mp hb3
    obtain ⟨st5, h5, hb5⟩ := Option.bind_eq_some.mp hb4
    obtain ⟨st6, h6, h7⟩ := Option.bind_eq_some.mp hb5
    rw [← hels] at h7
    obtain ⟨hp1, hp2, hp3⟩ := parseExpr_bounds (st.curID + 1) cond
    obtain ⟨hiA, hmA, hcA, -, -, hprovA⟩ := inv_emit h1 hinv (by omega)
      (by simp only [stmtIds, List.mem_cons]
          rintro i (rfl | hi)
          · omega
          · have := hp2 i hi
            omega)
      (by simp only [stmtIds, List.nodup_cons]
          refine ⟨fun hc => ?_, hp3⟩
          have := hp2 _ hc
          omega)
    have hfreshe : ∀ i ∈ allIds st1,
        i ≠ (parseExpr (st.curID + 1) cond).2 + 1 := by
      intro i hi
      rcases hprovA i hi with hi | hi
      · have := hinv.ids_lt i hi
        omega
      · simp only [stmtIds, List.mem_cons] at hi
        rcases hi with rfl | hi
        · omega
        · have := hp2 i hi
          omega
    have hiE := inv_push hiA hfreshe (by omega)
    have hfresht : ∀ i ∈ allIds (pushBlock st1
        ((parseExpr (st.curID + 1) cond).2 + 1)),
        i ≠ (parseExpr (st.curID + 1) cond).2 := by
      intro i hi
      rw [allIds_pushBlock] at hi
      rcases List.mem_append.mp hi with hi | hi
      · rcases hprovA i hi with hi | hi
        · have := hinv.ids_lt i hi
          omega
        · simp only [stmtIds, List.mem_cons] at hi
          rcases hi with rfl | hi
          · omega
          · have := hp2 i hi
            omega
      · simp only [List.mem_singleton] at hi
        omega
    have hiT := inv_push hiE hfresht (by simp only [pushBlock]; omega)
    obtain ⟨hi3, hm3⟩ := ih1 _ st3 h3 hiT
    obtain ⟨hi4, hm4, -, -⟩ := walkExprNode_inv st3 cond st4 h4 hi3
    obtain ⟨hi5, hm5⟩ := ih2 _ st5 h5 hi4
    obtain ⟨hi6, hc6, -⟩ := inv_pop h6 hi5
    obtain ⟨hi7, hm7⟩ := ih3 _ st' h7 hi6
    refine ⟨hi7, ?_⟩
    simp only [pushBlock] at hm3
    omega
  · -- for statement, no condition
    intro st init cond post body fId p blockId ih1 ih2 ih3 st' h hinv
    have hfId : fId = st.curID := rfl
    rcases cond with _ | e
    · have hp : p = ((none : Option VExpr), fId + 1) := rfl
      have hb : blockId = fId + 1 := rfl
      clear_value fId p blockId
      subst hfId hp hb
      simp only [walkStmt] at h
      obtain ⟨st1, h1, hb1⟩ := Option.bind_eq_some.mp h
      obtain ⟨st3, h3, hb3⟩ := Option.bind_eq_some.mp hb1
      obtain ⟨st4, h4, hb4⟩ := Option.bind_eq_some.mp hb3
      cases h4
      obtain ⟨st5, h5, hb5⟩ := Option.bind_eq_some.mp hb4
      obtain ⟨st6, h6, h7⟩ := Option.bind_eq_some.mp hb5
      obtain ⟨hiA, hmA, hcA, -, -, hprovA⟩ := inv_emit h1 hinv (by omega)
        (by simp only [stmtIds, exprIdsO, List.append_nil, List.mem_cons]
            rintro i (rfl | hi)
            · omega
            · cases hi)
        (by simp only [stmtIds, exprIdsO]
            exact List.nodup_cons.mpr ⟨List.not_mem_nil _, List.nodup_nil⟩)
      have hfresh : ∀ i ∈ allIds st1, i ≠ st.curID + 1 := by
        intro i hi
        rcases hprovA i hi with hi | hi
        · have := hinv.ids_lt i hi
          omega
        · simp only [stmtIds, exprIdsO, List.append_nil, List.mem_cons,
            List.not_mem_nil, or_false] at hi
          omega
      have hiPush := inv_push hiA hfresh (by omega)
      obtain ⟨hi3, hm3⟩ := ih1 _ st3 h3 hiPush
      obtain ⟨hi5, hm5⟩ := ih2 _ st5 h5 hi3
      obtain ⟨hi6, hm6⟩ := ih3 _ st6 h6 hi5
      obtain ⟨hi7, hc7, -⟩ := inv_pop h7 hi6
      refine ⟨hi7, ?_⟩
      simp only [pushBlock] at hm3
      omega
    · have hp : p = parseExpr (fId + 1) e := rfl
      have hb : blockId = (parseExpr (fId + 1) e).2 := hp ▸ rfl
      clear_value fId p blockId
      subst hfId hp hb
      simp only [walkStmt] at h
      obtain ⟨st1, h1, hb1⟩ := Option.bind_eq_some.mp h
      obtain ⟨st3, h3, hb3⟩ := Option.bind_eq_some.mp hb1
      obtain ⟨st4, h4, hb4⟩ := Option.bind_eq_some.mp hb3
      obtain ⟨st5, h5, hb5⟩ := Option.bind_eq_some.mp hb4
      obtain ⟨st6, h6, h7⟩ := Option.bind_eq_some.mp hb5
      obtain ⟨hp1, hp2, hp3⟩ := parseExpr_bounds (st.curID + 1) e
      obtain ⟨hiA, hmA, hcA, -, -, hprovA⟩ := inv_emit h1 hinv (by omega)
        (by simp only [stmtIds, List.mem_cons]
            rintro i (rfl | hi)
            · omega
            · have := hp2 i hi
              omega)
        (by simp only [stmtIds, List.nodup_cons]
            refine ⟨fun hc => ?_, hp3⟩
            have := hp2 _ hc
            omega)
      have hfresh : ∀ i ∈ allIds st1, i ≠ (parseExpr (st.curID + 1) e).2 := by
        intro i hi
        rcases hprovA i hi with hi | hi
        · have := hinv.ids_lt i hi
          omega
        · simp only [stmtIds, List.mem_cons] at hi
          rcases hi with rfl | hi
          · omega
          · have := hp2 i hi
            omega
      have hiPush := inv_push hiA hfresh (by omega)
      obtain ⟨hi3, hm3⟩ := ih1 _ st3 h3 hiPush
      obtain ⟨hi4, hm4, -, -⟩ := walkExprNode_inv st3 e st4 h4 hi3
      obtain ⟨hi5, hm5⟩ := ih2 _ st5 h5 hi4
      obtain ⟨hi6, hm6⟩ := ih3 _ st6 h6 hi5
      obtain ⟨hi7, hc7, -⟩ := inv_pop h7 hi6
      refine ⟨hi7, ?_⟩
      simp only [pushBlock] at hm3
      omega
  · -- bare block statement
    intro st body ih st' h hinv
    simp only [walkStmt] at h
    obtain ⟨st1, h1, h2⟩ := Option.bind_eq_some.mp h
    obtain ⟨hi1, hm1⟩ := ih st1 h1 hinv
    obtain ⟨hi2, hc2, -⟩ := inv_pop h2 hi1
    exact ⟨hi2, by omega⟩
  · -- branch statement
    intro st lbl st' h hinv
    exact addInvalid_inv (by simpa only [walkStmt] using h) hinv
  · -- range statement
    intro st body st' h hinv
    exact addInvalid_inv (by simpa only [walkStmt] using h) hinv
  · -- send statement
    intro st ch v st' h hinv
    exact addInvalid_inv (by simpa only [walkStmt] using h) hinv
  · -- switch statement
    intro st body st' h hinv
    exact addInvalid_inv (by simpa only [walkStmt] using h) hinv
  · -- defer statement
    intro st e st' h hinv
    exact addInvalid_inv (by simpa only [walkStmt] using h) hinv
  · -- go statement
    intro st e st' h hinv
    exact addInvalid_inv (by simpa only [walkStmt] using h) hinv
  · -- unrecognized statement
    intro st st' h hinv
    cases h
    exact ⟨hinv, le_refl _⟩
  · -- empty statement list
    intro st st' h hinv
    cases h
    exact ⟨hinv, le_refl _⟩
  · -- statement list cons
    intro st s rest ih1 ih2 st' h hinv
    simp only [walkStmts] at h
    obtain ⟨st1, h1, h2⟩ := Option.bind_eq_some.mp h
    obtain ⟨hi1, hm1⟩ := ih1 st1 h1 hinv
    obtain ⟨hi2, hm2⟩ := ih2 st1 st' h2 hi1
    exact ⟨hi2, by omega⟩

theorem walkStmts_inv :
    ∀ (l : List GoStmt) (st st' : VState),
      walkStmts st l = some st' → VInv st →
      VInv st' ∧ st.curID ≤ st'.curID := by
  intro l
  induction l with
  | nil =>
    intro st st' h hinv
    cases h
    exact ⟨hinv, le_refl _⟩
  | cons s rest ih =>
    intro st st' h hinv
    simp only [walkStmts] at h
    obtain ⟨st1, h1, h2⟩ := Option.bind_eq_some.mp h
    obtain ⟨hi1, hm1⟩ := walkStmt_inv st s st1 h1 hinv
    obtain ⟨hi2, hm2⟩ := ih st1 st' h2 hi1
    exact ⟨hi2, by omega⟩

theorem walkFuncDecl_inv (name : String) (params results : List GoField)
    (body : Option (List GoStmt)) (st st' : VState)
    (h : walkFuncDecl st name params results body = some st')
    (hinv : VInv st) : VInv st' ∧ st.curID ≤ st'.curID := by
  simp only [walkFuncDecl] at h
  obtain ⟨st1, h1, hb1⟩ := Option.bind_eq_some.mp h
  obtain ⟨ha1, ha2, ha3⟩ := assignIdToDataType_bounds (st.curID + 1)
    (some (match flattenFieldList results with
           | [(_, dt)] => dt
           | _ => .mk "void" none))
  obtain ⟨hv1, hv2, hv3, -⟩ := varDeclLoop_bounds (flattenFieldList params)
    ((assignIdToDataType (st.curID + 1)
      (some (match flattenFieldList results with
             | [(_, dt)] => dt
             | _ => .mk "void" none))).2 + 1)
  obtain ⟨hiA, hmA, hcA, -, -, hprovA⟩ := inv_emit h1 hinv (by omega)
    (by simp only [stmtIds, List.mem_cons, List.mem_append]
        rintro i (rfl | hi | hi)
        · omega
        · have := ha2 i hi
          omega
        · have := hv2 i hi
          omega)
    (by simp only [stmtIds]
        refine List.nodup_cons.mpr ⟨?_, nodup_append_of_bounds ha3 hv3
          (fun i hi => (ha2 i hi).2) (fun i hi => by have := (hv2 i hi).1; omega)⟩
        simp only [List.mem_append]
        rintro (hi | hi)
        · have := ha2 _ hi
          omega
        · have := hv2 _ hi
          omega)
  have hfresh : ∀ i ∈ allIds st1,
      i ≠ (assignIdToDataType (st.curID + 1)
        (some (match flattenFieldList results with
               | [(_, dt)] => dt
               | _ => .mk "void" none))).2 := by
    intro i hi
    rcases hprovA i hi with hi | hi
    · have := hinv.ids_lt i hi
      omega
    · simp only [stmtIds, List.mem_cons, List.mem_append] at hi
      rcases hi with rfl | hi | hi
      · omega
      · have := ha2 i hi
        omega
      · have := hv2 i hi
        omega
  have hiPush := inv_push hiA hfresh (by omega)
  rcases body with _ | l
  · simp only at hb1
    cases hb1
    refine ⟨hiPush, ?_⟩
    simp only [pushBlock]
    omega
  · simp only at hb1
    obtain ⟨st3, h3, h4⟩ := Option.bind_eq_some.mp hb1
    obtain ⟨hi3, hm3⟩ := walkStmts_inv l _ st3 h3 hiPush
    obtain ⟨hi4, hc4, -⟩ := inv_pop h4 hi3
    refine ⟨hi4, ?_⟩
    simp only [pushBlock] at hm3
    omega

theorem walkDecl_inv (d : GoDecl) (st st' : VState)
    (h : walkDecl st d = some st') (hinv : VInv st) :
    VInv st' ∧ st.curID ≤ st'.curID := by
  cases d with
  | funcDecl name params results body =>
    exact walkFuncDecl_inv name params results body st st' h hinv
  | genDecl specs =>
    obtain ⟨a, b, -, -⟩ := walkSpecs_inv specs st st' h hinv
    exact ⟨a, b⟩

theorem walkDecls_inv :
    ∀ (ds : List GoDecl) (st st' : VState),
      walkDecls st ds = some st' → VInv st →
      VInv st' ∧ st.curID ≤ st'.curID := by
  intro ds
  induction ds with
  | nil =>
    intro st st' h hinv
    cases h
    exact ⟨hinv, le_refl _⟩
  | cons d rest ih =>
    intro st st' h hinv
    simp only [walkDecls] at h
    obtain ⟨st1, h1, h2⟩ := Option.bind_eq_some.mp h
    obtain ⟨hi1, hm1⟩ := walkDecl_inv d st st1 h1 hinv
    obtain ⟨hi2, hm2⟩ := ih st1 st' h2 hi1
    exact ⟨hi2, by omega⟩

theorem initV_inv : VInv initV := by
  refine ⟨?_, ?_, ?_, ?_⟩
  · simp [initV, storeKeys]
  · simp [allIds, initV, storeIds, stmtIds]
  · intro i hi
    simp only [allIds, initV, storeIds, stmtIds] at hi
    simp only [List.flatMap_cons, List.flatMap_nil, List.append_nil,
      List.mem_cons, List.not_mem_nil, or_false] at hi
    simp [initV, hi]
  · intro k hk
    simp only [initV] at hk ⊢
    simpa [storeKeys] using hk

theorem runV_inv (f : GoFile) (st' : VState) (h : runV f = some st') :
    VInv st' := by
  exact (walkDecls_inv f.decls initV st' h initV_inv).1

theorem allocRun_spec :
    ∀ (n c : Nat), (allocRun c n).1 = List.range' c n ∧
      (allocRun c n).2 = c + n := by
  intro n
  induction n with
  | zero => intro c; simp [allocRun]
  | succ m ih =>
    intro c
    obtain ⟨ih1, ih2⟩ := ih (c + 1)
    simp only [allocRun, newID, List.range']
    exact ⟨by rw [ih1], by rw [ih2]; omega⟩

set_option maxHeartbeats 1600000 in
/-- C2 is a code bug in the visitor: the if-with-else arm pushes its
IfStmt onto the node stack twice (once beside the else block push, once
at the switch end) while ast.Walk issues exactly one closing Visit(nil)
per node, so each walked if-with-else leaves a stray IfStmt entry that
shifts every later pop decision.  Under the faithful node-stack dispatch
(runN): with two sibling if/else statements the first function's body
block is not popped at its exit and the next function declaration is
appended inside it; with an if/else nested in a then branch the outer
else branch's statements are appended to the THEN block (6) while the
else block (7) stays empty; and an else-if leaves the else scope open so
the next function is likewise swallowed by the first one's body.  The
spec's discipline — pop exactly what was pushed, else statements land in
the else block, a statement after a function never lands in its body —
fails on these ordinary inputs. -/
theorem claim_C2 :
    (∃ st, runN sibIfGo = some st ∧
      lookupStore st.v.store 3 = some
        [.conditional 4 (some (.identifier 5 "identifier" (.str "a")))
          6 (some 7),
         .conditional 8 (some (.identifier 9 "identifier" (.str "b")))
          10 (some 11),
         .funcDecl 12 "g" (some (.mk 13 "void" none)) [] 14] ∧
      lookupStore st.v.store 0 = some
        [.funcDecl 1 "f" (some (.mk 2 "void" none)) [] 3]) ∧
    (∃ st, runN nestIfGo = some st ∧
      lookupStore st.v.store 6 = some
        [.conditional 8 (some (.identifier 9 "identifier" (.str "b")))
          10 (some 11),
         .retStmt 12 none] ∧
      lookupStore st.v.store 7 = some []) ∧
    (∃ st, runN elseIfGo = some st ∧
      st.v.stack = [3, 0] ∧
      lookupStore st.v.store 3 = some
        [.conditional 4 (some (.identifier 5 "identifier" (.str "c")))
          6 (some 7),
         .funcDecl 11 "g" (some (.mk 12 "void" none)) [] 13]) := by
  refine ⟨⟨NState.mk (VState.mk 15
      [(0, [.funcDecl 1 "f" (some (.mk 2 "void" none)) [] 3]),
       (3, [.conditional 4 (some (.identifier 5 "identifier" (.str "a")))
              6 (some 7),
            .conditional 8 (some (.identifier 9 "identifier" (.str "b")))
              10 (some 11),
            .funcDecl 12 "g" (some (.mk 13 "void" none)) [] 14]),
       (7, []), (6, []), (11, []), (10, []), (14, [])]
      [0]) [.funcN, .fileN], rfl, rfl, rfl⟩,
    ⟨NState.mk (VState.mk 13
      [(0, [.funcDecl 1 "f" (some (.mk 2 "void" none)) [] 3]),
       (3, [.conditional 4 (some (.identifier 5 "identifier" (.str "a")))
              6 (some 7)]),
       (7, []),
       (6, [.conditional 8 (some (.identifier 9 "identifier" (.str "b")))
              10 (some 11),
            .retStmt 12 none]),
       (11, []), (10, [])]
      [0]) [.funcN, .fileN], rfl, rfl, rfl⟩,
    ⟨NState.mk (VState.mk 14
      [(0, [.funcDecl 1 "f" (some (.mk 2 "void" none)) [] 3]),
       (3, [.conditional 4 (some (.identifier 5 "identifier" (.str "c")))
              6 (some 7),
            .funcDecl 11 "g" (some (.mk 12 "void" none)) [] 13]),
       (7, [.conditional 8 (some (.identifier 9 "identifier" (.str "d")))
              10 none]),
       (6, []), (10, []), (13, [])]
      [3, 0]) [.fileN], rfl, rfl, rfl⟩⟩

/-- C3: the allocator returns the current counter and bumps it by one, so
a run of n calls from counter c returns exactly c, c+1, ..., c+n-1 — each
call strictly greater than every earlier one; the fixed base is 0 (the
root block takes id 0, NewAST leaves the counter at 1), and in any
completed run the emitted tree holds no id twice and every id is below
the final counter. -/
theorem claim_C3 :
    (∀ c : Nat, newID c = (c, c + 1)) ∧
    (∀ c n : Nat, (allocRun c n).1 = List.range' c n ∧
      (allocRun c n).2 = c + n) ∧
    (∀ c n : Nat, ((allocRun c n).1).Pairwise (· < ·)) ∧
    initV.curID = 1 ∧ allIds initV = [0] ∧
    (∀ (f : GoFile) (st' : VState), runV f = some st' →
      (allIds st').Nodup ∧ ∀ i ∈ allIds st', i < st'.curID) := by
  refine ⟨fun c => rfl, fun c n => allocRun_spec n c, ?_, rfl, rfl, ?_⟩
  · intro c n
    rw [(allocRun_spec n c).1]
    exact List.pairwise_lt_range' c n 1
  · intro f st' h
    exact ⟨(runV_inv f st' h).ids_nodup, (runV_inv f st' h).ids_lt⟩

theorem claim_C3_witness :
    ∃ st', runV helloWorldGo = some st' ∧ (allIds st').Nodup ∧
      ∀ i ∈ allIds st', i < st'.curID :=
  ⟨_, rfl, claim_C3.2.2.2.2.2 helloWorldGo _ rfl⟩

/-- C8: resolving a used type allocates fresh ids — every id inside the
DataType built by assignIdToDataType lies in the half-open interval the
call consumed from the counter, with no repeats, so distinct calls can
never share an id; a parameter pair declaring two names over one type
expression expands to two varDecls whose DataTypes carry the same name
but distinct root ids; and in any completed run no id (DataType ids
included) occurs twice in the output tree. -/
theorem claim_C8 :
    (∀ (c : Nat) (d : Option DT0),
      c ≤ (assignIdToDataType c d).2 ∧
      (∀ i ∈ dtIdsO (assignIdToDataType c d).1,
        c ≤ i ∧ i < (assignIdToDataType c d).2) ∧
      (dtIdsO (assignIdToDataType c d).1).Nodup) ∧
    (∀ (c : Nat) (n1 n2 : String) (dt : DT0),
      ∃ v1 v2 d1 d2,
        (varDeclLoop c [(n1, dt), (n2, dt)]).1 = [v1, v2] ∧
        v1.name = n1 ∧ v2.name = n2 ∧
        v1.dataType = some d1 ∧ v2.dataType = some d2 ∧
        d1.name = dt.name ∧ d2.name = dt.name ∧
        d1.id ≠ d2.id) ∧
    (∀ (f : GoFile) (st' : VState), runV f = some st' →
      (allIds st').Nodup) := by
  refine ⟨assignIdToDataType_bounds, ?_, fun f st' h => (runV_inv f st' h).ids_nodup⟩
  intro c n1 n2 dt
  refine ⟨⟨c, n1, some (assignIdDT (c + 1) dt).1, none⟩,
    ⟨(assignIdDT (c + 1) dt).2, n2,
      some (assignIdDT ((assignIdDT (c + 1) dt).2 + 1) dt).1, none⟩,
    (assignIdDT (c + 1) dt).1,
    (assignIdDT ((assignIdDT (c + 1) dt).2 + 1) dt).1,
    ?_, rfl, rfl, rfl, rfl, (assignIdDT_root (c + 1) dt).1,
    (assignIdDT_root ((assignIdDT (c + 1) dt).2 + 1) dt).1, ?_⟩
  · simp only [varDeclLoop, assignIdToDataType]
  · rw [(assignIdDT_root (c + 1) dt).2,
      (assignIdDT_root ((assignIdDT (c + 1) dt).2 + 1) dt).2]
    have := (assignIdDT_bounds (c + 1) dt).1
    omega

theorem claim_C8_witness :
    ∃ st', runV wfIfGo = some st' ∧ (allIds st').Nodup :=
  ⟨_, rfl, claim_C8.2.2 wfIfGo _ rfl⟩
